import Mathlib

/-
  Verification development for the jschannel-based RPC client
  (src/examples/react/src/util/handleBinder.js, second module: js_channel).

  The JavaScript source is shallowly embedded below:
  - JavaScript runtime values appearing in `params` object graphs are `JVal`
    (a reference into an explicit heap of objects), serializable wire values
    are `PVal` (a tree), and wire messages are `WireMsg`.
  - The recursive callback-extraction walk `pruneFunctions` of `call` is
    embedded with an explicit fuel argument; adequacy of the standard fuel is
    proved, which embeds termination of the JavaScript recursion.
  - The in-place mutation `delete obj[k]` of the source is embedded by
    returning the pruned tree alongside the walk state.
  - The process-wide mutable tables (`s_boundChans`, `s_transIds`, `outTbl`)
    and the timer/response callbacks become an explicit state machine
    (`ChanState` / `chanStep`).
-/

set_option maxHeartbeats 1000000

/-! ## JavaScript values -/

/-- A JavaScript value as it appears in a `params` object graph.  Objects are
references (`vobj`) into an explicit heap, so shared and cyclic structures are
representable, as they are in the JavaScript runtime.  Functions carry an
opaque tag standing for their identity. -/
inductive JVal where
  | vnull
  | vbool (b : Bool)
  | vnum (n : Int)
  | vstr (s : String)
  | vfunc (tag : Nat)
  | vobj (ref : Nat)
deriving DecidableEq, Repr

/-- A serializable (post-pruning) value: the tree a wire message carries.
JavaScript arrays are folded into objects with index keys, which is how the
walk treats them (`for (var k in obj)`). -/
inductive PVal where
  | pnull
  | pbool (b : Bool)
  | pnum (n : Int)
  | pstr (s : String)
  | pfunc (tag : Nat)
  | pobj (props : List (String × PVal))

/-- The five wire message types of the channel protocol (source header
comment, lines 28-50).  An absent `callbacks` member is embedded as `[]`. -/
inductive WireMsg where
  | request (id : Nat) (method : String) (params : PVal) (callbacks : List String)
  | response (id : Nat) (result : PVal)
  | errorResponse (id : Nat) (error : PVal) (message : PVal)
  | callbackInv (id : Nat) (callback : String) (params : PVal)
  | notification (method : String) (params : PVal)

/-- The heap backing `vobj` references: node id to own enumerable
properties. -/
abbrev Heap := List (Nat × List (String × JVal))

/-- Properties of node `n`; a dangling reference has no properties. -/
def heapProps (heap : Heap) (n : Nat) : List (String × JVal) :=
  (heap.lookup n).getD []

/-- JavaScript truthiness of a value (`if (obj) ...`). -/
def JVal.truthy : JVal → Bool
  | .vnull => false
  | .vbool b => b
  | .vnum n => n != 0
  | .vstr s => s != ""
  | .vfunc _ => true
  | .vobj _ => true

/-- `typeof v === 'object'` (true for `null` in JavaScript). -/
def JVal.typeofIsObject : JVal → Bool
  | .vnull => true
  | .vobj _ => true
  | _ => false

/-- `typeof v === 'function'`. -/
def JVal.typeofIsFunc : JVal → Bool
  | .vfunc _ => true
  | _ => false

/-- A non-object value carried over unchanged into the serializable tree. -/
def JVal.toPrim : JVal → PVal
  | .vnull => .pnull
  | .vbool b => .pbool b
  | .vnum n => .pnum n
  | .vstr s => .pstr s
  | .vfunc t => .pfunc t
  | .vobj _ => .pnull

/-- `path + (path.length ? '/' : '') + k` (source line 696). -/
def joinPath (path k : String) : String :=
  path ++ (if path.length != 0 then "/" else "") ++ k

/-! ## The callback-extraction walk of `call` (source lines 681-707) -/

/-- State of the walk: `seen` is the `seen` array (values are pushed and
never removed), `names` is `callbackNames`, `cbs` is the `callbacks` table
mapping extracted path to function tag. -/
structure WalkSt where
  seen  : List JVal
  names : List String
  cbs   : List (String × Nat)
deriving DecidableEq, Repr

/-- Outcomes of the walk other than normal completion: the
"params cannot be a recursive data structure" throw, or fuel exhaustion
(which the adequacy theorem rules out for the standard fuel). -/
inductive WalkErr where
  | recursiveParams
  | outOfFuel
deriving DecidableEq, Repr

mutual

/-- `pruneFunctions(path, obj)` (source lines 685-706).  Checks `seen`,
pushes truthy values, and for objects walks their properties.  Returns the
walk state together with the pruned serializable tree (the source instead
mutates `obj` in place with `delete obj[k]`). -/
def pruneFunctions (fuel : Nat) (heap : Heap) (path : String) (obj : JVal)
    (st : WalkSt) : Except WalkErr (WalkSt × PVal) :=
  if st.seen.contains obj then
    .error .recursiveParams
  else
    let st1 := if obj.truthy then { st with seen := st.seen ++ [obj] } else st
    match obj with
    | .vobj n =>
      match fuel with
      | 0 => .error .outOfFuel
      | f + 1 => do
        let (st2, props) ← prunePropsList f heap path (heapProps heap n) st1
        .ok (st2, .pobj props)
    | .vnull => .ok (st1, .pnull)
    | v => .ok (st1, v.toPrim)
termination_by (fuel, 0)

/-- The `for (var k in obj)` loop of `pruneFunctions` (source lines
694-704): function-valued members are extracted into `cbs`/`names` and
deleted from the output; object-typed members are walked recursively;
other members are kept. -/
def prunePropsList (fuel : Nat) (heap : Heap) (path : String)
    (props : List (String × JVal)) (st : WalkSt) :
    Except WalkErr (WalkSt × List (String × PVal)) :=
  match props with
  | [] => .ok (st, [])
  | (k, v) :: rest =>
    let np := joinPath path k
    if v.typeofIsFunc then
      let tag := match v with | .vfunc t => t | _ => 0
      prunePropsList fuel heap path rest
        { st with names := st.names ++ [np], cbs := st.cbs ++ [(np, tag)] }
    else if v.typeofIsObject then do
      let (st2, pv) ← pruneFunctions fuel heap np v st
      let (st3, rest2) ← prunePropsList fuel heap path rest st2
      .ok (st3, (k, pv) :: rest2)
    else do
      let (st2, rest2) ← prunePropsList fuel heap path rest st
      .ok (st2, (k, v.toPrim) :: rest2)
termination_by (fuel, props.length + 1)

end

/-- Enough fuel to visit each heap node once. -/
def stdFuel (heap : Heap) : Nat := heap.length + 1

/-- `[cfg.scope, m].join("::")` is built on `Array.prototype.join`. -/
def jsJoin (sep : String) : List String → String
  | [] => ""
  | [x] => x
  | x :: rest => x ++ sep ++ jsJoin sep rest

/-- The message construction of `call` (source lines 707-711): prune the
params, then build `{ id: s_curTranId, method: scopeMethod(m.method),
params: m.params, callbacks: callbackNames }`. -/
def buildCallMessage (curTranId : Nat) (scope method : String) (heap : Heap)
    (params : JVal) : Except WalkErr (WireMsg × WalkSt) := do
  let (st, pv) ← pruneFunctions (stdFuel heap) heap "" params ⟨[], [], []⟩
  .ok (.request curTranId (jsJoin "::" [scope, method]) pv st.names, st)

mutual

/-- Whether a pruned tree still contains a function value anywhere. -/
def PVal.hasFun : PVal → Bool
  | .pfunc _ => true
  | .pobj props => hasFunProps props
  | _ => false

/-- Property-list version of `PVal.hasFun`. -/
def hasFunProps : List (String × PVal) → Bool
  | [] => false
  | (_, v) :: rest => v.hasFun || hasFunProps rest

end

/-! ## Object-graph paths -/

/-- `PathTo heap v p m`: starting from value `v`, following the property
keys in `p` through the heap reaches object node `m`.  These are exactly the
edges the walk descends into (property values of object type). -/
inductive PathTo (heap : Heap) : JVal → List String → Nat → Prop where
  | here (n : Nat) : PathTo heap (JVal.vobj n) [] n
  | child (n : Nat) (k : String) (v : JVal) (p : List String) (m : Nat) :
      (k, v) ∈ heapProps heap n → PathTo heap v p m →
      PathTo heap (JVal.vobj n) (k :: p) m

/-- Well-formed heap: node ids are distinct and each node's property keys
are distinct (JavaScript objects cannot have duplicate keys). -/
def WFHeap (heap : Heap) : Prop :=
  (heap.map Prod.fst).Nodup ∧ ∀ pr ∈ heap, ((pr.2).map Prod.fst).Nodup

/-- Closed heap: every object reference stored in a property points at a
node of the heap (true of the JavaScript runtime by construction). -/
def ClosedHeap (heap : Heap) : Prop :=
  ∀ pr ∈ heap, ∀ kv ∈ pr.2, ∀ j : Nat, kv.2 = JVal.vobj j →
    j ∈ heap.map Prod.fst

/-- A root value whose object reference, if any, points into the heap. -/
def ClosedVal (heap : Heap) (v : JVal) : Prop :=
  ∀ j : Nat, v = JVal.vobj j → j ∈ heap.map Prod.fst

/-! ## Receiver-side callback synthesis and transaction invoke -/

/-- `typeof v === 'object'` on a serializable tree. -/
def PVal.typeofIsObjectP : PVal → Bool
  | .pnull => true
  | .pobj _ => true
  | _ => false

/-- Set property `k` (JavaScript `obj[k] = v`; replaces in place, appends if
absent). -/
def setProp (props : List (String × PVal)) (k : String) (v : PVal) :
    List (String × PVal) :=
  match props with
  | [] => [(k, v)]
  | (k2, v2) :: rest =>
    if k2 = k then (k, v) :: rest else (k2, v2) :: setProp rest k v

/-- Read property `k`. -/
def getProp (props : List (String × PVal)) (k : String) : Option PVal :=
  props.lookup k

/-- Callback synthesis on the receiving side (source lines 419-434): walk
`pathItems`, creating intermediate empty objects where the existing member is
not object-typed, and install a function at the last segment.  Installing
into a non-object (including `null`) raises, which strict mode does when
assigning a property on a primitive; the synthesized function is embedded as
`.pfunc 0`. -/
def installCallback (params : PVal) (pathItems : List String) :
    Except String PVal :=
  match pathItems, params with
  | [last], .pobj props => .ok (.pobj (setProp props last (.pfunc 0)))
  | cp :: rest@(_ :: _), .pobj props =>
    let child := match getProp props cp with
      | some c => if c.typeofIsObjectP then c else .pobj []
      | none => .pobj []
    match installCallback child rest with
    | .ok child2 => .ok (.pobj (setProp props cp child2))
    | .error e => .error e
  | _, _ => .error "cannot create a property on a non-object"

/-- Split a callback path on `/` (`path.split('/')`), on character lists. -/
def splitSlashChars : List Char → List (List Char)
  | [] => [[]]
  | '/' :: rest => [] :: splitSlashChars rest
  | c :: rest =>
    match splitSlashChars rest with
    | [] => [[c]]
    | h :: t => (c :: h) :: t

/-- `path.split('/')` producing strings. -/
def splitPath (p : String) : List String :=
  (splitSlashChars p.toList).map (fun cs => String.mk cs)

/-- `trans.invoke(cbName, v)` of `createTransaction` (source lines 338-348):
verify the transaction id is still in `inTbl` and the callback name was
declared by the request, then post a CallbackInvocation keyed by the
transaction id. -/
def transactionInvoke (inTbl : List Nat) (id : Nat) (callbacks : List String)
    (cbName : String) (v : PVal) : Except String WireMsg :=
  if !(inTbl.contains id) then
    .error "attempting to invoke a callback of a nonexistent transaction"
  else if !(callbacks.contains cbName) then
    .error "request supports no such callback"
  else
    .ok (.callbackInv id cbName v)

/-! ## Outbound transaction state machine (call / response / timeout)

The process-wide `s_transIds` table, a channel's `outTbl`, the timers armed
by `setTransactionTimeout` (source lines 381-393), and the response dispatch
of `onMessage` (source lines 493-513) become one explicit state machine.
`invoked` is a log of every success/error callback invocation performed. -/

/-- A channel's `outTbl` entry; `call` requires `success`, while `error` is
optional, so only its presence is tracked. -/
structure OutEntry where
  hasErrorCb : Bool
deriving DecidableEq, Repr

/-- One user-callback invocation: the success callback or the error callback
(with its error code) of the `call` whose transaction id is recorded. -/
inductive CbCall where
  | success (id : Nat)
  | failure (id : Nat) (code : String)
deriving DecidableEq, Repr

/-- Transaction id of an invocation. -/
def CbCall.cid : CbCall → Nat
  | .success i => i
  | .failure i _ => i

/-- State: the shared id counter `s_curTranId`, the channel `outTbl`, the
process-wide `s_transIds` (kept as the set of routed ids), the armed
not-yet-fired timers, and the invocation log. -/
structure ChanState where
  curTranId : Nat
  outTbl    : List (Nat × OutEntry)
  transIds  : List Nat
  armed     : List Nat
  invoked   : List CbCall
deriving DecidableEq, Repr

/-- Events: a `call` (with or without an error callback / a timeout), an
inbound Response or ErrorResponse for some id, or expiry of an armed
timer. -/
inductive ChanEvent where
  | call (hasErrorCb : Bool) (withTimeout : Bool)
  | inboundResponse (id : Nat) (isError : Bool) (code : String)
  | timerFire (id : Nat)
deriving DecidableEq, Repr

/-- One step of the protocol, transcribing `call` (lines 709-726), the
response branch of `onMessage` (lines 493-513), and the timer body of
`setTransactionTimeout` (lines 381-393). -/
def chanStep (st : ChanState) (ev : ChanEvent) : ChanState :=
  match ev with
  | .call hasErr withT =>
    { st with
      outTbl := (st.curTranId, ⟨hasErr⟩) :: st.outTbl
      transIds := st.curTranId :: st.transIds
      armed := if withT then st.curTranId :: st.armed else st.armed
      curTranId := st.curTranId + 1 }
  | .inboundResponse id isErr code =>
    -- s_onMessage routes by s_transIds (line 208); onMessage then checks outTbl
    if st.transIds.contains id then
      match st.outTbl.lookup id with
      | none => st
      | some entry =>
        let inv := if isErr then
            (if entry.hasErrorCb then [CbCall.failure id code] else [])
          else [CbCall.success id]
        { st with
          outTbl := st.outTbl.filter (fun p => p.1 != id)
          transIds := st.transIds.filter (fun i => i != id)
          invoked := st.invoked ++ inv }
    else st
  | .timerFire id =>
    if st.armed.contains id then
      let st1 := { st with armed := st.armed.filter (fun i => i != id) }
      match st1.outTbl.lookup id with
      | none => st1
      | some entry =>
        let inv := if entry.hasErrorCb then [CbCall.failure id "timeout_error"]
          else []
        { st1 with
          outTbl := st1.outTbl.filter (fun p => p.1 != id)
          transIds := st1.transIds.filter (fun i => i != id)
          invoked := st1.invoked ++ inv }
    else st

/-- Run a sequence of events. -/
def chanRun (st : ChanState) (evs : List ChanEvent) : ChanState :=
  evs.foldl chanStep st

/-- Fresh channel state with the given transaction-id seed. -/
def chanInit (seed : Nat) : ChanState := ⟨seed, [], [], [], []⟩

/-- All success/error invocations logged for transaction id `id`. -/
def invocationsFor (id : Nat) (st : ChanState) : List CbCall :=
  st.invoked.filter (fun c => c.cid == id)

/-- Invariant of reachable channel states, used to prove the at-most-once
property: table ids and logged ids are below the counter, logged ids are
pairwise distinct, and a logged id is never still outstanding. -/
def ChanInv (st : ChanState) : Prop :=
  (∀ p ∈ st.outTbl, p.1 < st.curTranId) ∧
  (∀ c ∈ st.invoked, c.cid < st.curTranId) ∧
  List.Pairwise (fun a b => CbCall.cid a ≠ CbCall.cid b) st.invoked ∧
  (∀ c ∈ st.invoked, ∀ p ∈ st.outTbl, p.1 ≠ c.cid)

/-! ## Registry (`s_boundChans`, source lines 82-119) -/

/-- `s_boundChans`: origin to scope to the windows bound there (each with a
routing handler, which the conflict check does not inspect). -/
abbrev BoundChans := List (String × List (String × List Nat))

/-- Update an association list at `k` (creating the entry if absent). -/
def updateAssoc {β : Type} (l : List (String × β)) (k : String)
    (dflt : β) (f : β → β) : List (String × β) :=
  match l with
  | [] => [(k, f dflt)]
  | (k2, v) :: rest =>
    if k2 = k then (k2, f v) :: rest else (k2, v) :: updateAssoc rest k dflt f

/-- `s_boundChans[origin][scope].push({win: win, handler: handler})`. -/
def insertChan (chans : BoundChans) (origin scope : String) (win : Nat) :
    BoundChans :=
  updateAssoc chans origin [] (fun scopes =>
    updateAssoc scopes scope [] (fun wins => wins ++ [win]))

/-- `s_addBoundChan(win, origin, scope, handler)` (source lines 85-119):
a wildcard registration conflicts when any concrete-origin bucket holds the
window at this scope; a concrete registration conflicts when the wildcard
bucket or its own origin bucket holds the window at this scope. -/
def s_addBoundChan (chans : BoundChans) (win : Nat) (origin scope : String) :
    Except String BoundChans :=
  let alreadyBound :=
    if origin = "*" then
      chans.any (fun kv =>
        kv.1 != "*" &&
          (match kv.2.lookup scope with
           | some wins => wins.contains win
           | none => false))
    else
      (match chans.lookup "*" with
       | some scopes =>
         match scopes.lookup scope with
         | some wins => wins.contains win
         | none => false
       | none => false) ||
      (match chans.lookup origin with
       | some scopes =>
         match scopes.lookup scope with
         | some wins => wins.contains win
         | none => false
       | none => false)
  if alreadyBound then
    .error "A channel is already bound to the same window with an overlapping origin and scope"
  else
    .ok (insertChan chans origin scope win)

/-- Whether an `Except` raised. -/
def exceptThrew {ε α : Type} : Except ε α → Bool
  | .error _ => true
  | .ok _ => false

/-! ## Scope validation and wire method names -/

/-- `s.split('::')` on character lists. -/
def splitOnDC : List Char → List (List Char)
  | [] => [[]]
  | ':' :: ':' :: rest => [] :: splitOnDC rest
  | c :: rest =>
    match splitOnDC rest with
    | [] => [[c]]
    | h :: t => (c :: h) :: t

/-- Whether the character list contains the `::` separator. -/
def containsDC : List Char → Bool
  | ':' :: ':' :: _ => true
  | _ :: rest => containsDC rest
  | [] => false

/-- Scope validation of `Channel.build` (source lines 305-310): a supplied
scope must not split on `::` into more than one piece; an absent scope
defaults to the literal `"__default"`. -/
def validateScope (scope : Option String) : Except String String :=
  match scope with
  | some s =>
    if (splitOnDC s.toList).length > 1 then
      .error "scope may not contain double colons"
    else
      .ok s
  | none => .ok "__default"

/-- `scopeMethod(m) = [cfg.scope, m].join("::")` (source lines 530-532). -/
def scopeMethod (scope m : String) : String :=
  jsJoin "::" [scope, m]

/-! ## Transaction-id seed (source line 74) -/

/-- `Math.floor(Math.random()*1000001)`, as a function of the value returned
by `Math.random()` (a real in `[0, 1)`, embedded as a rational). -/
def s_curTranIdInit (random : ℚ) : Int :=
  Int.floor (random * 1000001)

/-! ## Exception normalization (source lines 438-481) -/

/-- JSON string quoting (escaping of special characters elided; every input
appearing in the development is plain). -/
def jsQuote (s : String) : String := "\"" ++ s ++ "\""

mutual

/-- `JSON.stringify` on a serializable tree; `none` embeds the JavaScript
result `undefined` (a bare function does not stringify). -/
def jsonStringifyP : PVal → Option String
  | .pnull => some "null"
  | .pbool b => some (cond b "true" "false")
  | .pnum n => some (toString n)
  | .pstr s => some (jsQuote s)
  | .pfunc _ => none
  | .pobj fields => some ("\x7b" ++ jsJoin "," (jsonFieldStrs fields) ++ "\x7d")

/-- Rendered `"key":value` parts of an object; function-valued members are
omitted, as `JSON.stringify` omits them. -/
def jsonFieldStrs : List (String × PVal) → List String
  | [] => []
  | (k, v) :: rest =>
    match jsonStringifyP v with
    | none => jsonFieldStrs rest
    | some sv => (jsQuote k ++ ":" ++ sv) :: jsonFieldStrs rest

end

/-- A value thrown by a bound handler.  `jerror` is an `Error` instance
(constructor name and message); `jarr` a thrown array of serializable
values; `jobj` a plain thrown object. -/
inductive JThrown where
  | jnull
  | jundef
  | jbool (b : Bool)
  | jnum (n : Int)
  | jstr (s : String)
  | jerror (ctor : String) (message : String)
  | jarr (elems : List PVal)
  | jobj (fields : List (String × PVal))

/-- `JSON.stringify` on a thrown value (`undefined` stringifies to
`undefined`, i.e. `none`; an `Error` instance has no enumerable own
properties; array members that do not stringify render as `null`). -/
def stringifyThrown : JThrown → Option String
  | .jnull => some "null"
  | .jundef => none
  | .jbool b => some (cond b "true" "false")
  | .jnum n => some (toString n)
  | .jstr s => some (jsQuote s)
  | .jerror _ _ => some "\x7b\x7d"
  | .jarr elems =>
    some ("[" ++ jsJoin "," (elems.map (fun e => (jsonStringifyP e).getD "null")) ++ "]")
  | .jobj fields =>
    some ("\x7b" ++ jsJoin "," (jsonFieldStrs fields) ++ "\x7d")

/-- Whether a serializable value is exactly `null` (`message === null`). -/
def pvalIsNull : PVal → Bool
  | .pnull => true
  | _ => false

/-- JavaScript falsiness of a serializable value (`!e.message`). -/
def pvalFalsy : PVal → Bool
  | .pnull => true
  | .pbool b => !b
  | .pnum n => n == 0
  | .pstr s => s == ""
  | .pfunc _ => false
  | .pobj _ => false

/-- The two inputs on which the normalization block itself raises a
TypeError: reading `.error` off a thrown `null`, and `e.toString()` on a
thrown `undefined` (reached twice, inside the try and inside its catch, so
the second raise escapes). -/
inductive NormCrash where
  | nullPropertyAccess
  | undefinedToStr
deriving DecidableEq, Repr

/-- The exception-normalization `catch` block of request dispatch (source
lines 438-478), producing the `(error, message)` pair sent as an
ErrorResponse.  Branches follow the source order: thrown string; `Error`
instance; two-element array; object with a string `error` member (whose
non-string truthy `message` is re-stringified); everything else falls
through to `JSON.stringify`. -/
def normalizeThrown (e : JThrown) : Except NormCrash (PVal × PVal) :=
  match e with
  | .jstr s => .ok (.pstr "runtime_error", .pstr s)
  | .jerror ctor msg => .ok (.pstr ctor, .pstr msg)
  | .jarr elems =>
    if elems.length == 2 then
      match elems[0]?, elems[1]? with
      | some c, some m =>
        if pvalIsNull m then
          -- message === null still holds, so stringify the whole array
          .ok (c, .pstr ((stringifyThrown (.jarr elems)).getD ""))
        else
          .ok (c, m)
      | _, _ => .ok (.pstr "runtime_error", .pstr "")
    else
      .ok (.pstr "runtime_error", .pstr ((stringifyThrown (.jarr elems)).getD ""))
  | .jobj fields =>
    match fields.lookup "error" with
    | some (.pstr errStr) =>
      match fields.lookup "message" with
      | none => .ok (.pstr errStr, .pstr "")
      | some mv =>
        if pvalFalsy mv then
          .ok (.pstr errStr, .pstr "")
        else
          match mv with
          | .pstr ms => .ok (.pstr errStr, .pstr ms)
          | _ =>
            -- e = e.message, then message === null leads to stringify(e)
            match jsonStringifyP mv with
            | some sv => .ok (.pstr errStr, .pstr sv)
            | none => .ok (.pstr errStr, .pstr "function ()")
    | _ =>
      .ok (.pstr "runtime_error", .pstr ((stringifyThrown (.jobj fields)).getD ""))
  | .jnum n => .ok (.pstr "runtime_error", .pstr (toString n))
  | .jbool b => .ok (.pstr "runtime_error", .pstr (cond b "true" "false"))
  | .jnull => .error .nullPropertyAccess
  | .jundef => .error .undefinedToStr

/-! ## Dispatch boundary (source lines 410-523) -/

/-- Behaviour of a bound handler on one dispatch: return normally or
throw. -/
inductive HandlerOutcome where
  | returns (v : PVal)
  | throws (e : JThrown)

/-- A crash of the dispatcher itself (the normalization block raising). -/
inductive DispatchCrash where
  | normalizeCrashed (c : NormCrash)
deriving DecidableEq, Repr

/-- Request dispatch (source lines 410-484): no bound handler sends a
`method_not_found` ErrorResponse; a normal return is auto-completed into a
Response; a throw is normalized and sent as an ErrorResponse, unless the
normalization block itself raises, in which case the raise escapes the
dispatcher.  Returns the list of posted messages. -/
def dispatchBoundRequest (id : Nat) (h : Option HandlerOutcome) :
    Except DispatchCrash (List WireMsg) :=
  match h with
  | none =>
    .ok [.errorResponse id (.pstr "method_not_found")
          (.pstr "No method was (yet) bound by the provider")]
  | some (.returns v) => .ok [.response id v]
  | some (.throws e) =>
    match normalizeThrown e with
    | .ok (c, m) => .ok [.errorResponse id c m]
    | .error crash => .error (.normalizeCrashed crash)

/-- Notification dispatch (source lines 514-523): the handler runs with no
try/catch — "if the client throws, we'll just let it bubble out".  A throw
therefore escapes the dispatcher; nothing is posted either way. -/
def dispatchBoundNotification (h : Option HandlerOutcome) :
    Except JThrown (List WireMsg) :=
  match h with
  | none => .ok []
  | some (.returns _) => .ok []
  | some (.throws e) => .error e

/-- Measure for the fuel-adequacy proof: the number of heap nodes not yet
pushed onto `seen`. -/
def unseenCount (heap : Heap) (st : WalkSt) : Nat :=
  ((heap.map Prod.fst).filter (fun n => !(st.seen.contains (JVal.vobj n)))).length

/-! ## Generic list lemmas -/

/-- A successful association-list lookup locates a member. -/
theorem lookup_mem {β : Type} {l : List (Nat × β)} {a : Nat} {b : β}
    (h : List.lookup a l = some b) : (a, b) ∈ l := by
  induction l with
  | nil => simp [List.lookup] at h
  | cons hd tl ih =>
    rw [List.lookup] at h
    by_cases heq : a == hd.1
    · simp only [heq, if_true] at h
      have ha : a = hd.1 := eq_of_beq heq
      subst ha
      rw [Option.some_inj] at h
      subst h
      exact List.mem_cons_self _ _
    · simp only [heq, if_false, Bool.false_eq_true] at h
      exact List.mem_cons_of_mem _ (ih h)

/-- Filtering a list whose `cid`s are pairwise distinct by one `cid` keeps at
most one element. -/
theorem filter_cid_length_le_one {l : List CbCall} (id : Nat)
    (h : l.Pairwise (fun a b => CbCall.cid a ≠ CbCall.cid b)) :
    (l.filter (fun c => CbCall.cid c == id)).length ≤ 1 := by
  induction l with
  | nil => simp
  | cons hd tl ih =>
    rw [List.pairwise_cons] at h
    obtain ⟨hhd, htl⟩ := h
    by_cases hc : CbCall.cid hd == id
    · have hid : CbCall.cid hd = id := eq_of_beq hc
      have hnil : tl.filter (fun c => CbCall.cid c == id) = [] := by
        apply List.filter_eq_nil_iff.mpr
        intro c hcmem
        have := hhd c hcmem
        simp only [beq_iff_eq]
        omega
      simp [hc, hnil]
    · simp only [List.filter_cons, hc]
      simpa using ih htl

/-! ## Channel state machine: invariant preservation -/

/-- Resolving transaction `id` (removing its table entries and appending at
most one invocation carrying that id) preserves the invariant. -/
theorem chanInv_resolve (cur : Nat) (outTbl : List (Nat × OutEntry))
    (transIds armed armed2 : List Nat) (invoked : List CbCall)
    (id : Nat) (inv : List CbCall) (e : OutEntry)
    (h : ChanInv ⟨cur, outTbl, transIds, armed, invoked⟩)
    (hcid : ∀ c ∈ inv, CbCall.cid c = id)
    (hlen : inv.length ≤ 1)
    (hid : (id, e) ∈ outTbl) :
    ChanInv ⟨cur, outTbl.filter (fun p => p.1 != id),
      transIds.filter (fun i => i != id), armed2, invoked ++ inv⟩ := by
  obtain ⟨h1, h2, h3, h4⟩ := h
  dsimp only [ChanInv] at h1 h2 h3 h4 ⊢
  have hidlt : id < cur := h1 _ hid
  have hfresh : ∀ c ∈ invoked, CbCall.cid c ≠ id := by
    intro c hc hcontra
    exact h4 c hc _ hid hcontra.symm
  refine ⟨?_, ?_, ?_, ?_⟩
  · intro p hp
    exact h1 p (List.mem_of_mem_filter hp)
  · intro c hc
    rcases List.mem_append.mp hc with hold | hnew
    · exact h2 c hold
    · have := hcid c hnew
      omega
  · rw [List.pairwise_append]
    refine ⟨h3, ?_, ?_⟩
    · match inv, hlen with
      | [], _ => simp
      | [x], _ => simp
    · intro a ha b hb
      have hbcid := hcid b hb
      have hacid := hfresh a ha
      omega
  · intro c hc p hp
    have hpne : p.1 ≠ id := by
      have := List.of_mem_filter hp
      simpa using this
    rcases List.mem_append.mp hc with hold | hnew
    · exact h4 c hold p (List.mem_of_mem_filter hp)
    · have := hcid c hnew
      omega

/-- `chanStep` preserves the invariant. -/
theorem chanInv_step (st : ChanState) (ev : ChanEvent) (h : ChanInv st) :
    ChanInv (chanStep st ev) := by
  obtain ⟨cur, outTbl, transIds, armed, invoked⟩ := st
  obtain ⟨h1, h2, h3, h4⟩ := h
  dsimp only [ChanInv] at h1 h2 h3 h4
  cases ev with
  | call hasErr withT =>
    simp only [chanStep]
    refine ⟨?_, ?_, ?_, ?_⟩ <;> dsimp only
    · intro p hp
      rcases List.mem_cons.mp hp with hhd | htl
      · subst hhd; simp
      · have := h1 p htl; omega
    · intro c hc
      have := h2 c hc; omega
    · exact h3
    · intro c hc p hp
      rcases List.mem_cons.mp hp with hhd | htl
      · subst hhd
        have := h2 c hc
        dsimp only
        omega
      · exact h4 c hc p htl
  | inboundResponse id isErr code =>
    simp only [chanStep]
    by_cases hr : List.contains transIds id
    · simp only [hr, if_true]
      cases hl : List.lookup id outTbl with
      | none => exact ⟨h1, h2, h3, h4⟩
      | some entry =>
        have hmem : (id, entry) ∈ outTbl := lookup_mem hl
        apply chanInv_resolve cur outTbl transIds armed _ invoked id _ entry
          ⟨h1, h2, h3, h4⟩
        · intro c hc
          cases isErr <;> cases hh : entry.hasErrorCb <;> simp_all [CbCall.cid]
        · cases isErr <;> cases hh : entry.hasErrorCb <;> simp [hh]
        · exact hmem
    · simp only [hr, if_false]
      exact ⟨h1, h2, h3, h4⟩
  | timerFire id =>
    simp only [chanStep]
    by_cases ha : List.contains armed id
    · simp only [ha, if_true]
      cases hl : List.lookup id outTbl with
      | none => exact ⟨h1, h2, h3, h4⟩
      | some entry =>
        have hmem : (id, entry) ∈ outTbl := lookup_mem hl
        apply chanInv_resolve cur outTbl transIds armed _ invoked id _ entry
          ⟨h1, h2, h3, h4⟩
        · intro c hc
          cases hh : entry.hasErrorCb <;> simp_all [CbCall.cid]
        · cases hh : entry.hasErrorCb <;> simp [hh]
        · exact hmem
    · simp only [ha, if_false]
      exact ⟨h1, h2, h3, h4⟩

/-- Every state reachable from a fresh channel satisfies the invariant. -/
theorem chanInv_run (seed : Nat) (evs : List ChanEvent) :
    ChanInv (chanRun (chanInit seed) evs) := by
  have hrun : ∀ st, ChanInv st → ChanInv (chanRun st evs) := by
    induction evs with
    | nil => intro st h; exact h
    | cons e tl ih =>
      intro st h
      exact ih _ (chanInv_step st e h)
  apply hrun
  refine ⟨?_, ?_, ?_, ?_⟩ <;> simp [chanInit]

/-! ## Claims C1, C6, C3 -/

/-- Claim C1, counterexample.  A well-formed `call` (string method, function
success) that supplies no error callback, answered by the peer with an
ErrorResponse: no callback at all is invoked — `onMessage` guards the error
callback with `if (outTbl[m.id].error)` — yet both table entries are deleted,
so nothing can ever be invoked for this transaction later.  This refutes
"exactly one of the supplied success/error callbacks is eventually
invoked". -/
theorem claim_C1_counterexample :
    invocationsFor 5 (chanRun (chanInit 5)
      [.call false false, .inboundResponse 5 true "remote_error"]) = [] ∧
    (chanRun (chanInit 5)
      [.call false false, .inboundResponse 5 true "remote_error"]).outTbl = [] ∧
    (chanRun (chanInit 5)
      [.call false false, .inboundResponse 5 true "remote_error"]).transIds = [] := by
  refine ⟨?_, ?_, ?_⟩ <;> rfl

/-- Claim C1 (amended): per transaction id, at most one of the supplied
success/error callbacks is ever invoked, and never both.  A Response invokes
success exactly once.  An ErrorResponse or a timeout expiry invokes the error
callback exactly once when one was supplied, and invokes nothing at all when
the caller supplied no error callback. -/
theorem claim_C1_amended :
    (∀ (seed : Nat) (evs : List ChanEvent) (id : Nat),
        (invocationsFor id (chanRun (chanInit seed) evs)).length ≤ 1) ∧
    (∀ (seed : Nat) (id : Nat) (code : String) (evs : List ChanEvent),
        ¬(CbCall.success id ∈ (chanRun (chanInit seed) evs).invoked ∧
          CbCall.failure id code ∈ (chanRun (chanInit seed) evs).invoked)) ∧
    (∀ (seed : Nat) (b t : Bool) (c : String),
        invocationsFor seed (chanRun (chanInit seed)
          [.call b t, .inboundResponse seed false c]) = [.success seed]) ∧
    (∀ (seed : Nat) (t : Bool) (c : String),
        invocationsFor seed (chanRun (chanInit seed)
          [.call true t, .inboundResponse seed true c]) = [.failure seed c]) ∧
    (∀ (seed : Nat) (t : Bool) (c : String),
        invocationsFor seed (chanRun (chanInit seed)
          [.call false t, .inboundResponse seed true c]) = []) ∧
    (∀ (seed : Nat),
        invocationsFor seed (chanRun (chanInit seed)
          [.call true true, .timerFire seed]) = [.failure seed "timeout_error"]) ∧
    (∀ (seed : Nat),
        invocationsFor seed (chanRun (chanInit seed)
          [.call false true, .timerFire seed]) = []) := by
  refine ⟨?_, ?_, ?_, ?_, ?_, ?_, ?_⟩
  · intro seed evs id
    have hinv := chanInv_run seed evs
    exact filter_cid_length_le_one id hinv.2.2.1
  · intro seed id code evs hcontra
    obtain ⟨hs, hf⟩ := hcontra
    have hinv := chanInv_run seed evs
    have hsym : Symmetric (fun a b : CbCall => CbCall.cid a ≠ CbCall.cid b) := by
      intro a b hab
      exact fun hba => hab hba.symm
    have hne : CbCall.success id ≠ CbCall.failure id code := by
      intro hcontra2
      cases hcontra2
    have := hinv.2.2.1.forall hsym hs hf hne
    simp [CbCall.cid] at this
  · intro seed b t c
    simp [chanRun, chanStep, chanInit, invocationsFor, List.lookup, CbCall.cid]
  · intro seed t c
    simp [chanRun, chanStep, chanInit, invocationsFor, List.lookup, CbCall.cid]
  · intro seed t c
    simp [chanRun, chanStep, chanInit, invocationsFor, List.lookup, CbCall.cid]
  · intro seed
    simp [chanRun, chanStep, chanInit, invocationsFor, List.lookup, CbCall.cid]
  · intro seed
    simp [chanRun, chanStep, chanInit, invocationsFor, List.lookup, CbCall.cid]

/-- Claim C6: a `call` armed with a timeout and an error callback whose peer
never responds: on timer expiry the error callback is invoked with code
`timeout_error`, the channel `outTbl` entry and the process-wide `s_transIds`
entry are both evicted, and a Response or ErrorResponse arriving afterwards
leaves the state entirely unchanged (silently dropped). -/
theorem claim_C6 :
    ∀ (seed : Nat) (respErr : Bool) (c : String),
      invocationsFor seed (chanRun (chanInit seed)
        [.call true true, .timerFire seed]) = [.failure seed "timeout_error"] ∧
      (chanRun (chanInit seed) [.call true true, .timerFire seed]).outTbl = [] ∧
      (chanRun (chanInit seed) [.call true true, .timerFire seed]).transIds = [] ∧
      chanStep (chanRun (chanInit seed) [.call true true, .timerFire seed])
          (.inboundResponse seed respErr c)
        = chanRun (chanInit seed) [.call true true, .timerFire seed] := by
  intro seed respErr c
  refine ⟨?_, ?_, ?_, ?_⟩ <;>
    simp [chanRun, chanStep, chanInit, invocationsFor, List.lookup, CbCall.cid]

/-- Claim C3: the transaction-id counter is seeded with
`Math.floor(Math.random()*1000001)`.  The source comment requires "a random
*odd* number between 1 and a million", and the claim a randomized odd seed,
but the expression produces any integer in `[0, 1000000]`: `Math.random()`
returning `0` yields the even seed `0` (and `0.5` yields the even
`500000`), so the code does not enforce oddness. -/
theorem claim_C3_even_seed :
    s_curTranIdInit 0 = 0 ∧ ¬Odd (s_curTranIdInit 0) ∧
    s_curTranIdInit (1/2) = 500000 ∧ ¬Odd (s_curTranIdInit (1/2)) ∧
    (∀ q : ℚ, 0 ≤ q → q < 1 → 0 ≤ s_curTranIdInit q ∧ s_curTranIdInit q ≤ 1000000) := by
  have h0 : s_curTranIdInit 0 = 0 := by
    simp [s_curTranIdInit]
  have h5 : s_curTranIdInit (1/2) = 500000 := by
    rw [s_curTranIdInit]
    norm_num
  refine ⟨h0, ?_, h5, ?_, ?_⟩
  · rw [h0]; decide
  · rw [h5]; decide
  · intro q hq0 hq1
    constructor
    · rw [s_curTranIdInit]
      positivity
    · rw [s_curTranIdInit]
      have hlt : (q : ℚ) * 1000001 < ((1000001 : Int) : ℚ) := by
        push_cast
        nlinarith
      have := Int.floor_lt.mpr hlt
      omega

/-! ## Scope splitting lemmas and claims C8, C7 -/

/-- `split` never returns an empty list of pieces. -/
theorem splitOnDC_ne_nil (l : List Char) : splitOnDC l ≠ [] := by
  induction l using splitOnDC.induct with
  | case1 => simp [splitOnDC]
  | case2 rest ih => simp [splitOnDC]
  | case3 c rest h ih => simp_all [splitOnDC]
  | case4 => simp_all [splitOnDC]

/-- `s.split('::').length > 1` holds exactly when `s` contains `::`. -/
theorem splitOnDC_length_iff (l : List Char) :
    (splitOnDC l).length > 1 ↔ containsDC l = true := by
  induction l using splitOnDC.induct with
  | case1 => simp [splitOnDC, containsDC]
  | case2 rest ih =>
    have hne := splitOnDC_ne_nil rest
    simp [splitOnDC, containsDC]
    cases h : splitOnDC rest with
    | nil => exact absurd h hne
    | cons a t => simp
  | case3 c rest h ih =>
    exact absurd ih (splitOnDC_ne_nil rest)
  | case4 c rest h head tail hsplit ih =>
    have hcd : containsDC (c :: rest) = containsDC rest := by
      rw [containsDC]
      · exact h
    rw [splitOnDC, hsplit, hcd]
    · rw [hsplit] at ih
      simp only [List.length_cons] at ih ⊢
      exact ih
    · exact h

/-- Claim C8, counterexample.  With no scope configured, `cfg.scope` becomes
the literal `"__default"` and `scopeMethod` still joins with `::`, so the
wire method name is `"__default::ping"`, not the bare `"ping"` the claim
asserts for the default scope. -/
theorem claim_C8_counterexample :
    validateScope none = .ok "__default" ∧
    scopeMethod "__default" "ping" = "__default::ping" ∧
    scopeMethod "__default" "ping" ≠ "ping" := by
  refine ⟨rfl, rfl, by decide⟩

/-- Claim C8 (amended): a configured scope accepted by `Channel.build` never
contains `::`; an absent scope defaults to the literal `"__default"`; and the
wire method name is always `scope ++ "::" ++ method` — also for the default
scope, so an unscoped channel posts `"__default::method"`, never the bare
method name. -/
theorem claim_C8_amended :
    (∀ s s2 : String, validateScope (some s) = .ok s2 →
        s2 = s ∧ containsDC s.toList = false) ∧
    validateScope none = .ok "__default" ∧
    (∀ scope m : String, scopeMethod scope m = scope ++ "::" ++ m) := by
  refine ⟨?_, rfl, ?_⟩
  · intro s s2 h
    rw [validateScope] at h
    split at h
    · exact absurd h (by simp)
    · next hlen =>
        rw [Except.ok.injEq] at h
        subst h
        refine ⟨rfl, ?_⟩
        cases hc : containsDC s.toList with
        | false => rfl
        | true => exact absurd ((splitOnDC_length_iff s.toList).mpr hc) hlen
  · intro scope m
    rfl

/-- Claim C8 witness. -/
theorem claim_C8_witness :
    validateScope (some "chat") = .ok "chat" ∧
    ("chat" = "chat" ∧ containsDC "chat".toList = false) :=
  ⟨rfl, claim_C8_amended.1 "chat" "chat" rfl⟩

/-- Claim C7: registry conflict rules of `s_addBoundChan`.  A wildcard
registration fails when any concrete-origin entry holds the same window and
scope; a concrete registration fails when a wildcard entry holds the same
window and scope; and two registrations for the same window and scope under
the disjoint concrete origins `https://a.example` and `https://b.example`
both succeed. -/
theorem claim_C7 :
    (∀ (chans : BoundChans) (win : Nat) (scope o : String)
        (scopes : List (String × List Nat)) (wins : List Nat),
        (o, scopes) ∈ chans → o ≠ "*" → scopes.lookup scope = some wins →
        wins.contains win = true →
        exceptThrew (s_addBoundChan chans win "*" scope) = true) ∧
    (∀ (chans : BoundChans) (win : Nat) (scope o : String)
        (scopes : List (String × List Nat)) (wins : List Nat),
        chans.lookup "*" = some scopes → scopes.lookup scope = some wins →
        wins.contains win = true → o ≠ "*" →
        exceptThrew (s_addBoundChan chans win o scope) = true) ∧
    (∀ (win : Nat) (scope : String),
        s_addBoundChan [] win "https://a.example" scope
          = .ok [("https://a.example", [(scope, [win])])] ∧
        s_addBoundChan [("https://a.example", [(scope, [win])])] win
            "https://b.example" scope
          = .ok [("https://a.example", [(scope, [win])]),
                 ("https://b.example", [(scope, [win])])]) := by
  refine ⟨?_, ?_, ?_⟩
  · intro chans win scope o scopes wins hmem ho hsc hwin
    have hany : chans.any (fun kv =>
        kv.1 != "*" &&
          (match kv.2.lookup scope with
           | some wins => wins.contains win
           | none => false)) = true := by
      apply List.any_eq_true.mpr
      refine ⟨(o, scopes), hmem, ?_⟩
      simp only [hsc]
      simp only [bne_iff_ne, ne_eq, ho, not_false_eq_true, true_and, hwin]
      simp [ho]
    rw [s_addBoundChan]
    rw [if_pos (show ("*" : String) = "*" from rfl), if_pos hany]
    rfl
  · intro chans win scope o scopes wins hstar hsc hwin ho
    rw [s_addBoundChan]
    rw [if_neg ho]
    simp only [hstar, hsc, hwin]
    rw [if_pos (by simp)]
    rfl
  · intro win scope
    constructor <;>
      simp +decide [s_addBoundChan, insertChan, updateAssoc, exceptThrew,
        List.lookup]

/-- Claim C7 witness. -/
theorem claim_C7_witness :
    exceptThrew (s_addBoundChan [("https://x.example", [("sc", [7])])] 7 "*" "sc") = true ∧
    exceptThrew (s_addBoundChan [("*", [("sc", [7])])] 7 "https://x.example" "sc") = true ∧
    (s_addBoundChan [] 7 "https://a.example" "sc"
        = .ok [("https://a.example", [("sc", [7])])] ∧
     s_addBoundChan [("https://a.example", [("sc", [7])])] 7 "https://b.example" "sc"
        = .ok [("https://a.example", [("sc", [7])]),
               ("https://b.example", [("sc", [7])])]) :=
  ⟨claim_C7.1 [("https://x.example", [("sc", [7])])] 7 "sc" "https://x.example"
      [("sc", [7])] [7] (by simp) (by decide) (by simp [List.lookup]) (by decide),
   claim_C7.2.1 [("*", [("sc", [7])])] 7 "sc" "https://x.example"
      [("sc", [7])] [7] (by simp [List.lookup]) (by simp [List.lookup]) (by decide) (by decide),
   claim_C7.2.2 7 "sc"⟩

/-! ## Claims C4, C5 -/

/-- Claim C4, counterexample.  A handler that throws `null`: `typeof null ===
'object'`, it is not an `Error` and not an array (it is falsy), so the
normalization block evaluates `e.error` on `null` and itself raises a
TypeError — no ErrorResponse is produced at all, refuting the claim that
"anything else receives a best-effort textual rendering as the message". -/
theorem claim_C4_counterexample :
    normalizeThrown .jnull = .error .nullPropertyAccess ∧
    dispatchBoundRequest 1 (some (.throws .jnull))
      = .error (.normalizeCrashed .nullPropertyAccess) := by
  exact ⟨rfl, rfl⟩

/-- Claim C4 (amended): a thrown string `s` is sent as
`(runtime_error, s)`; a thrown two-element array `[c, m]` as `(c, m)`; a
thrown `Error` instance as its constructor name and message; a thrown object
with a string `error` member as its `error`/`message` members; any other
thrown value gets a best-effort textual rendering as the message with code
`runtime_error` — except thrown `null` and `undefined`, on which the
normalization block itself raises and no ErrorResponse is sent. -/
theorem claim_C4_amended :
    (∀ (id : Nat) (s : String),
        dispatchBoundRequest id (some (.throws (.jstr s)))
          = .ok [.errorResponse id (.pstr "runtime_error") (.pstr s)]) ∧
    (∀ (id : Nat) (c m : String),
        dispatchBoundRequest id (some (.throws (.jarr [.pstr c, .pstr m])))
          = .ok [.errorResponse id (.pstr c) (.pstr m)]) ∧
    (∀ (id : Nat) (ctor msg : String),
        dispatchBoundRequest id (some (.throws (.jerror ctor msg)))
          = .ok [.errorResponse id (.pstr ctor) (.pstr msg)]) ∧
    (∀ (id : Nat) (er ms : String),
        dispatchBoundRequest id
            (some (.throws (.jobj [("error", .pstr er), ("message", .pstr ms)])))
          = .ok [.errorResponse id (.pstr er) (.pstr ms)]) ∧
    (∀ (id : Nat) (n : Int),
        dispatchBoundRequest id (some (.throws (.jnum n)))
          = .ok [.errorResponse id (.pstr "runtime_error") (.pstr (toString n))]) ∧
    (∀ id : Nat, dispatchBoundRequest id (some (.throws .jnull))
        = .error (.normalizeCrashed .nullPropertyAccess)) ∧
    (∀ id : Nat, dispatchBoundRequest id (some (.throws .jundef))
        = .error (.normalizeCrashed .undefinedToStr)) := by
  refine ⟨?_, ?_, ?_, ?_, ?_, ?_, ?_⟩
  · intro id s; rfl
  · intro id c m
    simp +decide [dispatchBoundRequest, normalizeThrown, pvalIsNull]
  · intro id ctor msg; rfl
  · intro id er ms
    by_cases hms : ms = ""
    · subst hms
      simp +decide [dispatchBoundRequest, normalizeThrown, pvalFalsy, List.lookup]
    · simp +decide [dispatchBoundRequest, normalizeThrown, pvalFalsy, List.lookup, hms]
  · intro id n; rfl
  · intro id; rfl
  · intro id; rfl

/-- Claim C5, counterexample.  The notification branch of `onMessage` runs
the bound handler with no try/catch ("if the client throws, we'll just let it
bubble out" — source line 520): a handler throwing the string `"boom"` during
notification dispatch propagates out of the dispatcher and no ErrorResponse
is posted, refuting "every exception raised inside a bound handler while any
inbound message (request or notification) is dispatched is caught". -/
theorem claim_C5_counterexample :
    dispatchBoundNotification (some (.throws (.jstr "boom")))
      = .error (.jstr "boom") := by
  rfl

/-- Claim C5 (amended): an exception raised inside a bound handler during
request dispatch is caught at the dispatch boundary and sent as a normalized
ErrorResponse, provided normalization itself succeeds (thrown `null` or
`undefined` make the normalization block raise instead); an exception raised
inside a bound handler during notification dispatch is never caught and
propagates out of the dispatcher. -/
theorem claim_C5_amended :
    (∀ (id : Nat) (e : JThrown) (c m : PVal),
        normalizeThrown e = .ok (c, m) →
        dispatchBoundRequest id (some (.throws e))
          = .ok [.errorResponse id c m]) ∧
    (∀ (id : Nat) (e : JThrown) (cr : NormCrash),
        normalizeThrown e = .error cr →
        dispatchBoundRequest id (some (.throws e))
          = .error (.normalizeCrashed cr)) ∧
    (∀ e : JThrown, dispatchBoundNotification (some (.throws e)) = .error e) ∧
    (∀ v : PVal, dispatchBoundNotification (some (.returns v)) = .ok []) := by
  refine ⟨?_, ?_, ?_, ?_⟩
  · intro id e c m hnorm
    simp only [dispatchBoundRequest, hnorm]
  · intro id e cr hnorm
    simp only [dispatchBoundRequest, hnorm]
  · intro e; rfl
  · intro v; rfl

/-- Claim C5 witness. -/
theorem claim_C5_witness :
    dispatchBoundRequest 2 (some (.throws (.jstr "boom")))
      = .ok [.errorResponse 2 (.pstr "runtime_error") (.pstr "boom")] :=
  claim_C5_amended.1 2 (.jstr "boom") (.pstr "runtime_error") (.pstr "boom") rfl

/-! ## Walk unfolding and inversion lemmas -/

theorem pruneFunctions_vobj (f : Nat) (heap : Heap) (path : String) (n : Nat) (st : WalkSt) :
    pruneFunctions (f + 1) heap path (.vobj n) st =
      if st.seen.contains (.vobj n) then .error .recursiveParams
      else
        match prunePropsList f heap path (heapProps heap n)
            { st with seen := st.seen ++ [.vobj n] } with
        | .ok (st2, props) => .ok (st2, .pobj props)
        | .error e => .error e := by
  rw [pruneFunctions]
  split
  · rfl
  · cases h : prunePropsList f heap path (heapProps heap n)
        { st with seen := st.seen ++ [.vobj n] } with
    | ok p => simp [bind, Except.bind, h, JVal.truthy]
    | error e => simp [bind, Except.bind, h, JVal.truthy]

theorem pruneFunctions_vobj_zero (heap : Heap) (path : String) (n : Nat) (st : WalkSt) :
    pruneFunctions 0 heap path (.vobj n) st =
      if st.seen.contains (.vobj n) then .error .recursiveParams
      else .error .outOfFuel := by
  rw [pruneFunctions]

theorem pruneFunctions_vnull (fuel : Nat) (heap : Heap) (path : String) (st : WalkSt) :
    pruneFunctions fuel heap path .vnull st =
      if st.seen.contains .vnull then .error .recursiveParams
      else .ok (st, .pnull) := by
  rw [pruneFunctions]
  split <;> rfl

theorem pruneFunctions_prim (fuel : Nat) (heap : Heap) (path : String) (v : JVal) (st : WalkSt)
    (hno : v.typeofIsObject = false) :
    pruneFunctions fuel heap path v st =
      if st.seen.contains v then .error .recursiveParams
      else .ok ((if v.truthy then { st with seen := st.seen ++ [v] } else st), v.toPrim) := by
  cases v
  case vnull => simp [JVal.typeofIsObject] at hno
  case vobj => simp [JVal.typeofIsObject] at hno
  all_goals rw [pruneFunctions]

theorem prunePropsList_nil (fuel : Nat) (heap : Heap) (path : String) (st : WalkSt) :
    prunePropsList fuel heap path [] st = .ok (st, []) := by
  rw [prunePropsList]

theorem prunePropsList_func (fuel : Nat) (heap : Heap) (path k : String) (t : Nat)
    (rest : List (String × JVal)) (st : WalkSt) :
    prunePropsList fuel heap path ((k, .vfunc t) :: rest) st =
      prunePropsList fuel heap path rest
        { st with names := st.names ++ [joinPath path k],
                  cbs := st.cbs ++ [(joinPath path k, t)] } := by
  rw [prunePropsList]
  rfl

theorem prunePropsList_obj (fuel : Nat) (heap : Heap) (path k : String) (v : JVal)
    (rest : List (String × JVal)) (st : WalkSt)
    (hof : v.typeofIsFunc = false) (ho : v.typeofIsObject = true) :
    prunePropsList fuel heap path ((k, v) :: rest) st =
      match pruneFunctions fuel heap (joinPath path k) v st with
      | .error e => .error e
      | .ok (st2, pv) =>
        match prunePropsList fuel heap path rest st2 with
        | .error e => .error e
        | .ok (st3, rest2) => .ok (st3, (k, pv) :: rest2) := by
  rw [prunePropsList]
  case x_2 =>
    intro tag hv
    subst hv
    simp [JVal.typeofIsFunc] at hof
  simp only [hof, ho, Bool.false_eq_true, if_false, if_true]
  cases h : pruneFunctions fuel heap (joinPath path k) v st with
  | error e => simp [bind, Except.bind, h]
  | ok p =>
    cases h2 : prunePropsList fuel heap path rest p.1 with
    | error e => simp [bind, Except.bind, h, h2]
    | ok q => simp [bind, Except.bind, h, h2]

theorem prunePropsList_obj_ok (fuel : Nat) (heap : Heap) (path k : String) (v : JVal)
    (rest : List (String × JVal)) (st sta : WalkSt) (pv : PVal)
    (hof : v.typeofIsFunc = false) (ho : v.typeofIsObject = true)
    (hp : pruneFunctions fuel heap (joinPath path k) v st = .ok (sta, pv)) :
    prunePropsList fuel heap path ((k, v) :: rest) st =
      match prunePropsList fuel heap path rest sta with
      | .error e => .error e
      | .ok (st3, rest2) => .ok (st3, (k, pv) :: rest2) := by
  rw [prunePropsList_obj _ _ _ _ _ _ _ hof ho, hp]

theorem prunePropsList_obj_err (fuel : Nat) (heap : Heap) (path k : String) (v : JVal)
    (rest : List (String × JVal)) (st : WalkSt) (e : WalkErr)
    (hof : v.typeofIsFunc = false) (ho : v.typeofIsObject = true)
    (hp : pruneFunctions fuel heap (joinPath path k) v st = .error e) :
    prunePropsList fuel heap path ((k, v) :: rest) st = .error e := by
  rw [prunePropsList_obj _ _ _ _ _ _ _ hof ho, hp]

theorem prunePropsList_prim (fuel : Nat) (heap : Heap) (path k : String) (v : JVal)
    (rest : List (String × JVal)) (st : WalkSt)
    (hof : v.typeofIsFunc = false) (ho : v.typeofIsObject = false) :
    prunePropsList fuel heap path ((k, v) :: rest) st =
      match prunePropsList fuel heap path rest st with
      | .error e => .error e
      | .ok (st2, rest2) => .ok (st2, (k, v.toPrim) :: rest2) := by
  rw [prunePropsList]
  case x_2 =>
    intro tag hv
    subst hv
    simp [JVal.typeofIsFunc] at hof
  simp only [hof, ho, Bool.false_eq_true, if_false]
  cases h2 : prunePropsList fuel heap path rest st with
  | error e => simp [bind, Except.bind, h2]
  | ok q => simp [bind, Except.bind, h2]

theorem pruneFunctions_ok_inv (fuel : Nat) (heap : Heap) (path : String) (v : JVal)
    (st st2 : WalkSt) (pv : PVal)
    (h : pruneFunctions fuel heap path v st = .ok (st2, pv)) :
    st.seen.contains v = false ∧
    ((∃ n f props2, v = .vobj n ∧ fuel = f + 1 ∧
        prunePropsList f heap path (heapProps heap n)
          { st with seen := st.seen ++ [v] } = .ok (st2, props2) ∧
        pv = .pobj props2) ∨
     (v = .vnull ∧ st2 = st ∧ pv = .pnull) ∨
     (v.typeofIsObject = false ∧
      st2 = (if v.truthy then { st with seen := st.seen ++ [v] } else st) ∧
      pv = v.toPrim)) := by
  cases v with
  | vobj n =>
    cases fuel with
    | zero =>
      rw [pruneFunctions_vobj_zero] at h
      split at h <;> simp at h
    | succ f =>
      rw [pruneFunctions_vobj] at h
      split at h
      · simp at h
      · next hcont =>
        refine ⟨by simpa using hcont, ?_⟩
        left
        cases hp : prunePropsList f heap path (heapProps heap n)
            { st with seen := st.seen ++ [.vobj n] } with
        | error e => rw [hp] at h; simp at h
        | ok p =>
          rw [hp] at h
          obtain ⟨p1, p2⟩ := p
          simp only [Except.ok.injEq, Prod.mk.injEq] at h
          obtain ⟨rfl, rfl⟩ := h
          exact ⟨n, f, p2, rfl, rfl, hp, rfl⟩
  | vnull =>
    rw [pruneFunctions_vnull] at h
    split at h
    · simp at h
    · next hcont =>
      simp only [Except.ok.injEq, Prod.mk.injEq] at h
      obtain ⟨rfl, rfl⟩ := h
      exact ⟨by simpa using hcont, Or.inr (Or.inl ⟨rfl, rfl, rfl⟩)⟩
  | vbool b =>
    rw [pruneFunctions_prim fuel heap path (.vbool b) st rfl] at h
    split at h
    · simp at h
    · next hcont =>
      simp only [Except.ok.injEq, Prod.mk.injEq] at h
      obtain ⟨rfl, rfl⟩ := h
      exact ⟨by simpa using hcont, Or.inr (Or.inr ⟨rfl, rfl, rfl⟩)⟩
  | vnum n =>
    rw [pruneFunctions_prim fuel heap path (.vnum n) st rfl] at h
    split at h
    · simp at h
    · next hcont =>
      simp only [Except.ok.injEq, Prod.mk.injEq] at h
      obtain ⟨rfl, rfl⟩ := h
      exact ⟨by simpa using hcont, Or.inr (Or.inr ⟨rfl, rfl, rfl⟩)⟩
  | vstr s =>
    rw [pruneFunctions_prim fuel heap path (.vstr s) st rfl] at h
    split at h
    · simp at h
    · next hcont =>
      simp only [Except.ok.injEq, Prod.mk.injEq] at h
      obtain ⟨rfl, rfl⟩ := h
      exact ⟨by simpa using hcont, Or.inr (Or.inr ⟨rfl, rfl, rfl⟩)⟩
  | vfunc t =>
    rw [pruneFunctions_prim fuel heap path (.vfunc t) st rfl] at h
    split at h
    · simp at h
    · next hcont =>
      simp only [Except.ok.injEq, Prod.mk.injEq] at h
      obtain ⟨rfl, rfl⟩ := h
      exact ⟨by simpa using hcont, Or.inr (Or.inr ⟨rfl, rfl, rfl⟩)⟩

theorem prunePropsList_cons_ok (fuel : Nat) (heap : Heap) (path k : String) (v : JVal)
    (rest : List (String × JVal)) (st st2 : WalkSt) (res : List (String × PVal))
    (h : prunePropsList fuel heap path ((k, v) :: rest) st = .ok (st2, res)) :
    (∃ t, v = .vfunc t ∧
      prunePropsList fuel heap path rest
        { st with names := st.names ++ [joinPath path k],
                  cbs := st.cbs ++ [(joinPath path k, t)] } = .ok (st2, res)) ∨
    (v.typeofIsFunc = false ∧ v.typeofIsObject = true ∧
      ∃ sta pv rest2,
        pruneFunctions fuel heap (joinPath path k) v st = .ok (sta, pv) ∧
        prunePropsList fuel heap path rest sta = .ok (st2, rest2) ∧
        res = (k, pv) :: rest2) ∨
    (v.typeofIsFunc = false ∧ v.typeofIsObject = false ∧
      ∃ rest2, prunePropsList fuel heap path rest st = .ok (st2, rest2) ∧
        res = (k, v.toPrim) :: rest2) := by
  by_cases hf : v.typeofIsFunc = true
  · obtain ⟨t, rfl⟩ : ∃ t, v = .vfunc t := by
      cases v <;> simp_all [JVal.typeofIsFunc]
    rw [prunePropsList_func] at h
    exact Or.inl ⟨t, rfl, h⟩
  · rw [Bool.not_eq_true] at hf
    by_cases ho : v.typeofIsObject = true
    · cases hp : pruneFunctions fuel heap (joinPath path k) v st with
      | error e =>
        rw [prunePropsList_obj_err _ _ _ _ _ _ _ _ hf ho hp] at h
        simp at h
      | ok p =>
        obtain ⟨sta, pv⟩ := p
        rw [prunePropsList_obj_ok _ _ _ _ _ _ _ _ _ hf ho hp] at h
        cases hq : prunePropsList fuel heap path rest sta with
        | error e => rw [hq] at h; simp at h
        | ok q =>
          rw [hq] at h
          obtain ⟨st3, rest2⟩ := q
          simp only [Except.ok.injEq, Prod.mk.injEq] at h
          obtain ⟨rfl, rfl⟩ := h
          refine Or.inr (Or.inl ⟨hf, ho, ?_⟩)
          exact ⟨sta, pv, rest2, rfl, hq, rfl⟩
    · rw [Bool.not_eq_true] at ho
      rw [prunePropsList_prim _ _ _ _ _ _ _ hf ho] at h
      cases hq : prunePropsList fuel heap path rest st with
      | error e => rw [hq] at h; simp at h
      | ok q =>
        rw [hq] at h
        obtain ⟨st3, rest2⟩ := q
        simp only [Except.ok.injEq, Prod.mk.injEq] at h
        obtain ⟨rfl, rfl⟩ := h
        refine Or.inr (Or.inr ⟨hf, ho, ?_⟩)
        exact ⟨rest2, rfl, rfl⟩

/-! ## The walk only extends its state -/

/-- A successful walk of one value only appends to `seen` and `names`. -/
theorem valPrefix :
    ∀ (fuel : Nat) (heap : Heap) (path : String) (v : JVal) (st st2 : WalkSt)
      (pv : PVal), pruneFunctions fuel heap path v st = .ok (st2, pv) →
      st.seen <+: st2.seen ∧ st.names <+: st2.names := by
  intro fuel
  induction fuel with
  | zero =>
    intro heap path v st st2 pv h
    obtain ⟨hcont, hcases⟩ := pruneFunctions_ok_inv _ _ _ _ _ _ _ h
    rcases hcases with ⟨n, f, props2, rfl, hfuel, hp, rfl⟩ | ⟨rfl, rfl, rfl⟩ |
      ⟨hno, rfl, rfl⟩
    · exact absurd hfuel (by omega)
    · exact ⟨List.prefix_refl _, List.prefix_refl _⟩
    · by_cases ht : v.truthy = true <;>
        simp [ht, List.prefix_append, List.prefix_refl]
  | succ f ihf =>
    -- the property-list walk at fuel f, assuming the value walk at fuel f
    have hprops : ∀ (heap : Heap) (path : String) (props : List (String × JVal))
        (st st2 : WalkSt) (res : List (String × PVal)),
        prunePropsList f heap path props st = .ok (st2, res) →
        st.seen <+: st2.seen ∧ st.names <+: st2.names := by
      intro heap path props
      induction props with
      | nil =>
        intro st st2 res h
        rw [prunePropsList_nil] at h
        simp only [Except.ok.injEq, Prod.mk.injEq] at h
        obtain ⟨rfl, rfl⟩ := h
        exact ⟨List.prefix_refl _, List.prefix_refl _⟩
      | cons kv rest ihrest =>
        obtain ⟨k, v⟩ := kv
        intro st st2 res h
        rcases prunePropsList_cons_ok _ _ _ _ _ _ _ _ _ h with
          ⟨t, rfl, hrest⟩ | ⟨hf2, ho, sta, pv, rest2, hp, hrest, rfl⟩ |
          ⟨hf2, ho, rest2, hrest, rfl⟩
        · have hr := ihrest _ _ _ hrest
          refine ⟨hr.1, ?_⟩
          exact (List.prefix_append _ _).trans hr.2
        · have h1 := ihf _ _ _ _ _ _ hp
          have h2 := ihrest _ _ _ hrest
          exact ⟨h1.1.trans h2.1, h1.2.trans h2.2⟩
        · exact ihrest _ _ _ hrest
    intro heap path v st st2 pv h
    obtain ⟨hcont, hcases⟩ := pruneFunctions_ok_inv _ _ _ _ _ _ _ h
    rcases hcases with ⟨n, f2, props2, rfl, hfuel, hp, rfl⟩ | ⟨rfl, rfl, rfl⟩ |
      ⟨hno, rfl, rfl⟩
    · have hfe : f2 = f := by omega
      subst hfe
      have hr := hprops _ _ _ _ _ _ hp
      refine ⟨?_, ?_⟩
      · exact (List.prefix_append _ _).trans hr.1
      · exact hr.2
    · exact ⟨List.prefix_refl _, List.prefix_refl _⟩
    · by_cases ht : v.truthy = true <;>
        simp [ht, List.prefix_append, List.prefix_refl]

/-- A successful property-list walk only appends to `seen` and `names`. -/
theorem propsPrefix (fuel : Nat) (heap : Heap) (path : String)
    (props : List (String × JVal)) (st st2 : WalkSt) (res : List (String × PVal))
    (h : prunePropsList fuel heap path props st = .ok (st2, res)) :
    st.seen <+: st2.seen ∧ st.names <+: st2.names := by
  induction props generalizing st res with
  | nil =>
    rw [prunePropsList_nil] at h
    simp only [Except.ok.injEq, Prod.mk.injEq] at h
    obtain ⟨rfl, rfl⟩ := h
    exact ⟨List.prefix_refl _, List.prefix_refl _⟩
  | cons kv rest ihrest =>
    obtain ⟨k, v⟩ := kv
    rcases prunePropsList_cons_ok _ _ _ _ _ _ _ _ _ h with
      ⟨t, rfl, hrest⟩ | ⟨hf2, ho, sta, pv, rest2, hp, hrest, rfl⟩ |
      ⟨hf2, ho, rest2, hrest, rfl⟩
    · have hr := ihrest _ _ hrest
      exact ⟨hr.1, (List.prefix_append _ _).trans hr.2⟩
    · have h1 := valPrefix _ _ _ _ _ _ _ hp
      have h2 := ihrest _ _ hrest
      exact ⟨h1.1.trans h2.1, h1.2.trans h2.2⟩
    · exact ihrest _ _ hrest

/-! ## Visits of object-typed children -/

/-- If the property-list walk succeeds, every object-valued member was itself
walked successfully at an intermediate state extending the entry state. -/
theorem propsChild_ok (fuel : Nat) (heap : Heap) (path : String)
    (props : List (String × JVal)) (st st2 : WalkSt) (res : List (String × PVal))
    (h : prunePropsList fuel heap path props st = .ok (st2, res))
    (k : String) (j : Nat) (hmem : (k, JVal.vobj j) ∈ props) :
    ∃ sa sb pv, st.seen <+: sa.seen ∧
      pruneFunctions fuel heap (joinPath path k) (JVal.vobj j) sa = .ok (sb, pv) ∧
      sb.seen <+: st2.seen := by
  induction props generalizing st res with
  | nil => simp at hmem
  | cons kv rest ihrest =>
    obtain ⟨k2, v⟩ := kv
    rcases prunePropsList_cons_ok _ _ _ _ _ _ _ _ _ h with
      ⟨t, heq, hrest⟩ | ⟨hf2, ho, sta, pv, rest2, hp, hrest, rfl⟩ |
      ⟨hf2, ho, rest2, hrest, rfl⟩
    · rcases List.mem_cons.mp hmem with hhd | htl
      · rw [Prod.mk.injEq] at hhd
        rw [heq] at hhd
        exact absurd hhd.2 (by simp)
      · obtain ⟨sa, sb, pv, h1, h2, h3⟩ := ihrest _ _ hrest htl
        exact ⟨sa, sb, pv, h1, h2, h3⟩
    · rcases List.mem_cons.mp hmem with hhd | htl
      · rw [Prod.mk.injEq] at hhd
        obtain ⟨rfl, rfl⟩ := hhd
        refine ⟨st, sta, pv, List.prefix_refl _, hp, ?_⟩
        exact (propsPrefix _ _ _ _ _ _ _ hrest).1
      · obtain ⟨sa, sb, pv2, h1, h2, h3⟩ := ihrest _ _ hrest htl
        refine ⟨sa, sb, pv2, ?_, h2, h3⟩
        exact (valPrefix _ _ _ _ _ _ _ hp).1.trans h1
    · rcases List.mem_cons.mp hmem with hhd | htl
      · rw [Prod.mk.injEq] at hhd
        obtain ⟨rfl, rfl⟩ := hhd
        simp [JVal.typeofIsObject] at ho
      · exact ihrest _ _ hrest htl

/-- The source of any path is an object value. -/
theorem pathTo_vobj {heap : Heap} {v : JVal} {p : List String} {m : Nat}
    (h : PathTo heap v p m) : ∃ i, v = JVal.vobj i := by
  cases h <;> exact ⟨_, rfl⟩

/-- After a successful walk of `v`, every node reachable from `v` has been
pushed onto `seen`. -/
theorem pathTo_mem_seen :
    ∀ (p : List String) (fuel : Nat) (heap : Heap) (path : String) (v : JVal)
      (st st2 : WalkSt) (pv : PVal) (m : Nat),
      pruneFunctions fuel heap path v st = .ok (st2, pv) →
      PathTo heap v p m → JVal.vobj m ∈ st2.seen := by
  intro p
  induction p with
  | nil =>
    intro fuel heap path v st st2 pv m h hpath
    cases hpath with
    | here n =>
      obtain ⟨hcont, hcases⟩ := pruneFunctions_ok_inv _ _ _ _ _ _ _ h
      rcases hcases with ⟨n2, f, props2, heq, hfuel, hp, rfl⟩ | ⟨heq, rfl, rfl⟩ |
        ⟨hno, rfl, rfl⟩
      · have hpre := (propsPrefix _ _ _ _ _ _ _ hp).1
        apply hpre.subset
        simp
      · simp at heq
      · simp [JVal.typeofIsObject] at hno
  | cons k p2 ih =>
    intro fuel heap path v st st2 pv m h hpath
    rcases hpath with _ | ⟨n, k2, u, p3, m2, hmem, hpath2⟩
    obtain ⟨j, rfl⟩ := pathTo_vobj hpath2
    obtain ⟨hcont, hcases⟩ := pruneFunctions_ok_inv _ _ _ _ _ _ _ h
    rcases hcases with ⟨n2, f, props2, heq, hfuel, hp, rfl⟩ | ⟨heq, rfl, rfl⟩ |
      ⟨hno, rfl, rfl⟩
    · obtain rfl : n2 = n := by
        injection heq with h2
        exact h2.symm
      obtain ⟨sa, sb, pv2, h1, h2, h3⟩ :=
        propsChild_ok _ _ _ _ _ _ _ hp k j hmem
      have hm := ih _ _ _ _ _ _ _ _ h2 hpath2
      exact h3.subset hm
    · simp at heq
    · simp [JVal.typeofIsObject] at hno

/-- Before a successful walk of `v`, no node reachable from `v` was already
in `seen`: the walk would have thrown the recursive-structure error. -/
theorem pathTo_fresh :
    ∀ (p : List String) (fuel : Nat) (heap : Heap) (path : String) (v : JVal)
      (st st2 : WalkSt) (pv : PVal) (m : Nat),
      pruneFunctions fuel heap path v st = .ok (st2, pv) →
      PathTo heap v p m → JVal.vobj m ∉ st.seen := by
  intro p
  induction p with
  | nil =>
    intro fuel heap path v st st2 pv m h hpath
    cases hpath with
    | here =>
      obtain ⟨hcont, hcases⟩ := pruneFunctions_ok_inv _ _ _ _ _ _ _ h
      intro hmem
      simp at hcont
      exact hcont hmem
  | cons k p2 ih =>
    intro fuel heap path v st st2 pv m h hpath
    rcases hpath with _ | ⟨n, k2, u, p3, m2, hmem, hpath2⟩
    obtain ⟨j, rfl⟩ := pathTo_vobj hpath2
    obtain ⟨hcont, hcases⟩ := pruneFunctions_ok_inv _ _ _ _ _ _ _ h
    rcases hcases with ⟨n2, f, props2, heq, hfuel, hp, rfl⟩ | ⟨heq, rfl, rfl⟩ |
      ⟨hno, rfl, rfl⟩
    · obtain rfl : n2 = n := by
        injection heq with h2
        exact h2.symm
      obtain ⟨sa, sb, pv2, h1, h2, h3⟩ :=
        propsChild_ok _ _ _ _ _ _ _ hp k j hmem
      have hfr := ih _ _ _ _ _ _ _ _ h2 hpath2
      intro hmem2
      apply hfr
      apply h1.subset
      simp only [List.mem_append]
      exact Or.inl hmem2
    · simp at heq
    · simp [JVal.typeofIsObject] at hno

/-! ## Distinct paths force the recursive-structure error -/

/-- In an association list with distinct keys, a key determines its value. -/
theorem assoc_nodup_unique {α β : Type} (l : List (α × β))
    (h : (l.map Prod.fst).Nodup) (k : α) (u w : β) :
    (k, u) ∈ l → (k, w) ∈ l → u = w := by
  induction l with
  | nil => intro hu; simp at hu
  | cons hd tl ih =>
    intro hu hw
    simp only [List.map_cons, List.nodup_cons] at h
    obtain ⟨hk, htl⟩ := h
    rcases List.mem_cons.mp hu with hu1 | hu2 <;>
      rcases List.mem_cons.mp hw with hw1 | hw2
    · rw [← hu1] at hw1
      exact (Prod.mk.injEq _ _ _ _ ▸ hw1).2.symm
    · exfalso
      apply hk
      rw [← hu1]
      exact List.mem_map.mpr ⟨(k, w), hw2, rfl⟩
    · exfalso
      apply hk
      rw [← hw1]
      exact List.mem_map.mpr ⟨(k, u), hu2, rfl⟩
    · exact ih htl hu2 hw2

/-- In a well-formed heap, a property key of a node determines its value. -/
theorem heapProps_key_unique (heap : Heap) (hwf : WFHeap heap) (n : Nat)
    (k : String) (u w : JVal) (hu : (k, u) ∈ heapProps heap n)
    (hw : (k, w) ∈ heapProps heap n) : u = w := by
  unfold heapProps at hu hw
  cases hl : heap.lookup n with
  | none => rw [hl] at hu; simp at hu
  | some props =>
    rw [hl] at hu hw
    simp only [Option.getD_some] at hu hw
    have hmem := lookup_mem hl
    have hnd := hwf.2 _ hmem
    exact assoc_nodup_unique props hnd k u w hu hw

/-- If the property-list walk succeeds and two distinct keys hold object
values, both were walked, one strictly after the other finished. -/
theorem propsTwo_ok (fuel : Nat) (heap : Heap) (path : String)
    (props : List (String × JVal)) (st st2 : WalkSt) (res : List (String × PVal))
    (h : prunePropsList fuel heap path props st = .ok (st2, res))
    (ka kb : String) (a b : Nat)
    (hka : (ka, JVal.vobj a) ∈ props) (hkb : (kb, JVal.vobj b) ∈ props)
    (hne : ka ≠ kb) :
    ∃ sa sa2 pa sb sb2 pb,
      pruneFunctions fuel heap (joinPath path ka) (JVal.vobj a) sa = .ok (sa2, pa) ∧
      pruneFunctions fuel heap (joinPath path kb) (JVal.vobj b) sb = .ok (sb2, pb) ∧
      (sa2.seen <+: sb.seen ∨ sb2.seen <+: sa.seen) := by
  induction props generalizing st res with
  | nil => simp at hka
  | cons kv rest ihrest =>
    obtain ⟨k2, v⟩ := kv
    rcases prunePropsList_cons_ok _ _ _ _ _ _ _ _ _ h with
      ⟨t, heq, hrest⟩ | ⟨hf2, ho, sta, pv, rest2, hp, hrest, rfl⟩ |
      ⟨hf2, ho, rest2, hrest, rfl⟩
    · have hka2 : (ka, JVal.vobj a) ∈ rest := by
        rcases List.mem_cons.mp hka with hh | ht
        · rw [Prod.mk.injEq] at hh
          rw [heq] at hh
          exact absurd hh.2 (by simp)
        · exact ht
      have hkb2 : (kb, JVal.vobj b) ∈ rest := by
        rcases List.mem_cons.mp hkb with hh | ht
        · rw [Prod.mk.injEq] at hh
          rw [heq] at hh
          exact absurd hh.2 (by simp)
        · exact ht
      exact ihrest _ _ hrest hka2 hkb2
    · rcases List.mem_cons.mp hka with hh1 | ht1
      · rw [Prod.mk.injEq] at hh1
        obtain ⟨rfl, rfl⟩ := hh1
        have hkb2 : (kb, JVal.vobj b) ∈ rest := by
          rcases List.mem_cons.mp hkb with hh | ht
          · rw [Prod.mk.injEq] at hh
            exact absurd hh.1.symm hne
          · exact ht
        obtain ⟨sb, sb2, pvb, hb1, hb2, hb3⟩ :=
          propsChild_ok _ _ _ _ _ _ _ hrest kb b hkb2
        exact ⟨st, sta, pv, sb, sb2, pvb, hp, hb2, Or.inl hb1⟩
      · rcases List.mem_cons.mp hkb with hh2 | ht2
        · rw [Prod.mk.injEq] at hh2
          obtain ⟨rfl, rfl⟩ := hh2
          obtain ⟨sa, sa2, pva, ha1, ha2, ha3⟩ :=
            propsChild_ok _ _ _ _ _ _ _ hrest ka a ht1
          exact ⟨sa, sa2, pva, st, sta, pv, ha2, hp, Or.inr ha1⟩
        · exact ihrest _ _ hrest ht1 ht2
    · have hka2 : (ka, JVal.vobj a) ∈ rest := by
        rcases List.mem_cons.mp hka with hh | ht
        · rw [Prod.mk.injEq] at hh
          obtain ⟨rfl, rfl⟩ := hh
          simp [JVal.typeofIsObject] at ho
        · exact ht
      have hkb2 : (kb, JVal.vobj b) ∈ rest := by
        rcases List.mem_cons.mp hkb with hh | ht
        · rw [Prod.mk.injEq] at hh
          obtain ⟨rfl, rfl⟩ := hh
          simp [JVal.typeofIsObject] at ho
        · exact ht
      exact ihrest _ _ hrest hka2 hkb2

/-- A successful walk of node `m` rules out a non-empty path from `m` back to
`m`: the cycle edge would find `m` already in `seen`. -/
theorem core_here_child (fuel : Nat) (heap : Heap) (path : String) (m : Nat)
    (k : String) (q2 : List String) (st st2 : WalkSt) (pv : PVal)
    (hq : PathTo heap (JVal.vobj m) (k :: q2) m)
    (hwalk : pruneFunctions fuel heap path (JVal.vobj m) st = .ok (st2, pv)) :
    False := by
  rcases hq with _ | ⟨n, k2, u, p3, m2, hmem, hq2⟩
  obtain ⟨j, rfl⟩ := pathTo_vobj hq2
  obtain ⟨hcont, hcases⟩ := pruneFunctions_ok_inv _ _ _ _ _ _ _ hwalk
  rcases hcases with ⟨n2, f, props2, heq, hfuel, hp, rfl⟩ | ⟨heq, rfl, rfl⟩ |
    ⟨hno, rfl, rfl⟩
  · obtain rfl : n2 = m := by
      injection heq with h2
      exact h2.symm
    obtain ⟨sa, sb, pv2, h1, h2, h3⟩ :=
      propsChild_ok _ _ _ _ _ _ _ hp k j hmem
    have hfr := pathTo_fresh _ _ _ _ _ _ _ _ _ h2 hq2
    apply hfr
    apply h1.subset
    simp
  · simp at heq
  · simp [JVal.typeofIsObject] at hno

/-- Core theorem: if the same node is reachable along two distinct key
paths, the walk cannot succeed. -/
theorem core_two_paths :
    ∀ (p q : List String) (fuel : Nat) (heap : Heap) (path : String) (v : JVal)
      (st st2 : WalkSt) (pv : PVal) (m : Nat),
      WFHeap heap → p ≠ q → PathTo heap v p m → PathTo heap v q m →
      pruneFunctions fuel heap path v st = .ok (st2, pv) → False := by
  intro p
  induction p with
  | nil =>
    intro q fuel heap path v st st2 pv m hwf hne hp hq hwalk
    cases q with
    | nil => exact hne rfl
    | cons k q2 =>
      rcases hp with _ | _
      exact core_here_child _ _ _ _ _ _ _ _ _ hq hwalk
  | cons k p2 ihp =>
    intro q fuel heap path v st st2 pv m hwf hne hpath hq hwalk
    cases q with
    | nil =>
      rcases hq with _ | _
      exact core_here_child _ _ _ _ _ _ _ _ _ hpath hwalk
    | cons k2 q2 =>
      rcases hpath with _ | ⟨n, ka2, u, pa3, ma2, hmem1, hp2⟩
      obtain ⟨ju, rfl⟩ := pathTo_vobj hp2
      rcases hq with _ | ⟨nb, kb2, w, pb3, mb2, hmem2, hq2⟩
      obtain ⟨jw, rfl⟩ := pathTo_vobj hq2
      obtain ⟨hcont, hcases⟩ := pruneFunctions_ok_inv _ _ _ _ _ _ _ hwalk
      rcases hcases with ⟨n2, f, props2, heq, hfuel, hp, rfl⟩ | ⟨heq, rfl, rfl⟩ |
        ⟨hno, rfl, rfl⟩
      · obtain rfl : n2 = n := by
          injection heq with h2
          exact h2.symm
        by_cases hk : k = k2
        · subst hk
          have huw : JVal.vobj ju = JVal.vobj jw :=
            heapProps_key_unique heap hwf _ k _ _ hmem1 hmem2
          obtain rfl : ju = jw := by
            injection huw
          have hpq : p2 ≠ q2 := by
            intro hcontra
            exact hne (by rw [hcontra])
          obtain ⟨sa, sb, pv2, h1, h2, h3⟩ :=
            propsChild_ok _ _ _ _ _ _ _ hp k ju hmem1
          exact ihp q2 _ _ _ _ _ _ _ _ hwf hpq hp2 hq2 h2
        · obtain ⟨sa, sa2, pa, sb, sb2, pb, hwa, hwb, horder⟩ :=
            propsTwo_ok _ _ _ _ _ _ _ hp k k2 ju jw hmem1 hmem2 hk
          rcases horder with h1 | h1
          · have hm1 := pathTo_mem_seen _ _ _ _ _ _ _ _ _ hwa hp2
            have hm2 := pathTo_fresh _ _ _ _ _ _ _ _ _ hwb hq2
            exact hm2 (h1.subset hm1)
          · have hm1 := pathTo_mem_seen _ _ _ _ _ _ _ _ _ hwb hq2
            have hm2 := pathTo_fresh _ _ _ _ _ _ _ _ _ hwa hp2
            exact hm2 (h1.subset hm1)
      · simp at heq
      · simp [JVal.typeofIsObject] at hno

/-! ## Fuel adequacy: the walk never exhausts the standard fuel -/

/-- Filtering by a weaker predicate keeps at least as many elements. -/
theorem length_filter_mono {α : Type} (l : List α) (p q : α → Bool)
    (h : ∀ a ∈ l, p a = true → q a = true) :
    (l.filter p).length ≤ (l.filter q).length := by
  induction l with
  | nil => simp
  | cons hd tl ih =>
    have ihtl := ih (fun a ha => h a (List.mem_cons_of_mem _ ha))
    by_cases hp : p hd = true
    · have hq := h hd (List.mem_cons_self _ _) hp
      simp only [List.filter_cons, hp, hq, if_true, List.length_cons]
      omega
    · rw [Bool.not_eq_true] at hp
      simp only [List.filter_cons, hp]
      by_cases hq : q hd = true <;> simp only [hq] <;> simp <;> omega

/-- A longer `seen` leaves no more heap nodes unseen. -/
theorem unseenCount_mono (heap : Heap) (st st2 : WalkSt)
    (h : st.seen <+: st2.seen) : unseenCount heap st2 ≤ unseenCount heap st := by
  apply length_filter_mono
  intro a _ hp
  simp only [Bool.not_eq_true'] at hp ⊢
  simp only [List.elem_eq_mem, decide_eq_false_iff_not] at hp ⊢
  intro hmem
  exact hp (h.subset hmem)

/-- Pushing an unseen heap node onto `seen` decreases the measure by one. -/
theorem unseenCount_push (heap : Heap) (st : WalkSt) (n : Nat)
    (hnodup : (heap.map Prod.fst).Nodup) (hmem : n ∈ heap.map Prod.fst)
    (hunseen : st.seen.contains (JVal.vobj n) = false) :
    unseenCount heap { st with seen := st.seen ++ [JVal.vobj n] } + 1
      = unseenCount heap st := by
  unfold unseenCount
  have hgen : ∀ (keys : List Nat) (seen : List JVal),
      keys.Nodup → n ∈ keys → seen.contains (JVal.vobj n) = false →
      (keys.filter (fun i => !((seen ++ [JVal.vobj n]).contains (JVal.vobj i)))).length + 1
        = (keys.filter (fun i => !(seen.contains (JVal.vobj i)))).length := by
    intro keys
    induction keys with
    | nil => intro seen _ hm; simp at hm
    | cons k rest ih =>
      intro seen hnd hm hun
      rw [List.nodup_cons] at hnd
      obtain ⟨hknotin, hndrest⟩ := hnd
      by_cases hkn : k = n
      · subst hkn
        have hnew : ((seen ++ [JVal.vobj k]).contains (JVal.vobj k)) = true := by
          simp
        have hold : (seen.contains (JVal.vobj k)) = false := hun
        have htl : rest.filter
              (fun i => !((seen ++ [JVal.vobj k]).contains (JVal.vobj i)))
            = rest.filter (fun i => !(seen.contains (JVal.vobj i))) := by
          apply List.filter_congr
          intro i hi
          have hik : i ≠ k := fun hik => hknotin (hik ▸ hi)
          simp only [List.elem_eq_mem, List.mem_append, List.mem_singleton]
          have : (JVal.vobj i = JVal.vobj k) = False := by
            simp [hik]
          simp [this]
        simp only [List.filter_cons, hnew, hold, htl]
        simp
      · have hmrest : n ∈ rest := by
          rcases List.mem_cons.mp hm with h1 | h2
          · exact absurd h1.symm hkn
          · exact h2
        have hhd : ((seen ++ [JVal.vobj n]).contains (JVal.vobj k))
            = (seen.contains (JVal.vobj k)) := by
          simp only [List.elem_eq_mem, List.mem_append, List.mem_singleton]
          have : (JVal.vobj k = JVal.vobj n) = False := by
            simp [hkn]
          simp [this]
        have ihr := ih seen hndrest hmrest hun
        simp only [List.filter_cons, hhd]
        by_cases hc : (seen.contains (JVal.vobj k)) = false
        · simp only [hc, Bool.not_false, if_true, List.length_cons]
          omega
        · rw [Bool.not_eq_false] at hc
          simp only [hc, Bool.not_true, if_false]
          exact ihr
  exact hgen (heap.map Prod.fst) st.seen hnodup hmem hunseen

/-- Fuel adequacy, property-list level, assuming it at the value level for
the same fuel. -/
theorem propsFuel_of_valFuel (fuel : Nat) (heap : Heap)
    (hval : ∀ (path : String) (v : JVal) (st : WalkSt),
      ClosedVal heap v → unseenCount heap st < fuel →
      pruneFunctions fuel heap path v st ≠ .error .outOfFuel) :
    ∀ (path : String) (props : List (String × JVal)) (st : WalkSt),
      (∀ kv ∈ props, ∀ j : Nat, kv.2 = JVal.vobj j → j ∈ heap.map Prod.fst) →
      unseenCount heap st < fuel →
      prunePropsList fuel heap path props st ≠ .error .outOfFuel := by
  intro path props
  induction props with
  | nil =>
    intro st hcl hfuel
    rw [prunePropsList_nil]
    simp
  | cons kv rest ih =>
    obtain ⟨k, v⟩ := kv
    intro st hcl hfuel
    have hclrest : ∀ kv ∈ rest, ∀ j : Nat, kv.2 = JVal.vobj j →
        j ∈ heap.map Prod.fst :=
      fun kv hkv => hcl kv (List.mem_cons_of_mem _ hkv)
    have hobjcase : v.typeofIsFunc = false → v.typeofIsObject = true →
        ClosedVal heap v →
        prunePropsList fuel heap path ((k, v) :: rest) st ≠ .error .outOfFuel := by
      intro hof ho hcv
      cases hp : pruneFunctions fuel heap (joinPath path k) v st with
      | error e =>
        rw [prunePropsList_obj_err _ _ _ _ _ _ _ _ hof ho hp]
        have hne : e ≠ WalkErr.outOfFuel := by
          intro he
          subst he
          exact hval (joinPath path k) v st hcv hfuel hp
        simp [hne]
      | ok p =>
        obtain ⟨sta, pv⟩ := p
        rw [prunePropsList_obj_ok _ _ _ _ _ _ _ _ _ hof ho hp]
        have hpre := (valPrefix _ _ _ _ _ _ _ hp).1
        have hlt : unseenCount heap sta < fuel :=
          lt_of_le_of_lt (unseenCount_mono heap st sta hpre) hfuel
        have hrest := ih sta hclrest hlt
        cases hq : prunePropsList fuel heap path rest sta with
        | error e =>
          have hne : e ≠ WalkErr.outOfFuel := by
            intro he
            subst he
            exact hrest hq
          simp [hne]
        | ok q => simp
    cases v with
    | vfunc t =>
      rw [prunePropsList_func]
      exact ih _ hclrest hfuel
    | vnull =>
      exact hobjcase rfl rfl (fun j hj => by simp at hj)
    | vobj j =>
      apply hobjcase rfl rfl
      intro j2 hj
      have hj2 : j2 = j := by
        injection hj with hinj
        exact hinj.symm
      subst hj2
      exact hcl (k, JVal.vobj j2) (List.mem_cons_self _ _) j2 rfl
    | vbool b =>
      rw [prunePropsList_prim _ _ _ _ (.vbool b) _ _ rfl rfl]
      have hrest := ih st hclrest hfuel
      cases hq : prunePropsList fuel heap path rest st with
      | error e =>
        have hne : e ≠ WalkErr.outOfFuel := by
          intro he
          subst he
          exact hrest hq
        simp [hne]
      | ok q => simp
    | vnum n =>
      rw [prunePropsList_prim _ _ _ _ (.vnum n) _ _ rfl rfl]
      have hrest := ih st hclrest hfuel
      cases hq : prunePropsList fuel heap path rest st with
      | error e =>
        have hne : e ≠ WalkErr.outOfFuel := by
          intro he
          subst he
          exact hrest hq
        simp [hne]
      | ok q => simp
    | vstr s =>
      rw [prunePropsList_prim _ _ _ _ (.vstr s) _ _ rfl rfl]
      have hrest := ih st hclrest hfuel
      cases hq : prunePropsList fuel heap path rest st with
      | error e =>
        have hne : e ≠ WalkErr.outOfFuel := by
          intro he
          subst he
          exact hrest hq
        simp [hne]
      | ok q => simp

/-- Fuel adequacy at the value level: with more fuel than unseen heap nodes,
the walk never exhausts fuel. -/
theorem valFuel :
    ∀ (fuel : Nat) (heap : Heap), (heap.map Prod.fst).Nodup →
      ClosedHeap heap →
      ∀ (path : String) (v : JVal) (st : WalkSt),
      ClosedVal heap v → unseenCount heap st < fuel →
      pruneFunctions fuel heap path v st ≠ .error .outOfFuel := by
  intro fuel
  induction fuel with
  | zero =>
    intro heap _ _ path v st _ hfuel
    omega
  | succ f ihf =>
    intro heap hnodup hclosed path v st hcv hfuel
    have hprops := propsFuel_of_valFuel f heap (ihf heap hnodup hclosed)
    cases v with
    | vobj n =>
      rw [pruneFunctions_vobj]
      split
      · simp
      · next hcont =>
        have hcont2 : st.seen.contains (JVal.vobj n) = false := by
          simpa using hcont
        have hmemk : n ∈ heap.map Prod.fst := hcv n rfl
        have hpush := unseenCount_push heap st n hnodup hmemk hcont2
        have hlt : unseenCount heap
            { st with seen := st.seen ++ [JVal.vobj n] } < f := by
          omega
        have hpcl : ∀ kv ∈ heapProps heap n, ∀ j : Nat,
            kv.2 = JVal.vobj j → j ∈ heap.map Prod.fst := by
          unfold heapProps
          cases hl : heap.lookup n with
          | none => simp
          | some props =>
            intro kv hkv j hj
            exact hclosed (n, props) (lookup_mem hl) kv (by simpa using hkv) j hj
        have hrest := hprops path (heapProps heap n) _ hpcl hlt
        cases hq : prunePropsList f heap path (heapProps heap n)
            { st with seen := st.seen ++ [JVal.vobj n] } with
        | error e =>
          have hne : e ≠ WalkErr.outOfFuel := by
            intro he
            subst he
            exact hrest hq
          simp [hne]
        | ok q => simp
    | vnull =>
      rw [pruneFunctions_vnull]
      split <;> simp
    | vbool b =>
      rw [pruneFunctions_prim _ _ _ (.vbool b) _ rfl]
      split <;> simp
    | vnum n =>
      rw [pruneFunctions_prim _ _ _ (.vnum n) _ rfl]
      split <;> simp
    | vstr s =>
      rw [pruneFunctions_prim _ _ _ (.vstr s) _ rfl]
      split <;> simp
    | vfunc t =>
      rw [pruneFunctions_prim _ _ _ (.vfunc t) _ rfl]
      split <;> simp

/-- The standard fuel of `buildCallMessage` is always adequate. -/
theorem stdFuel_adequate (heap : Heap) (v : JVal) (st : WalkSt)
    (hwf : WFHeap heap) (hch : ClosedHeap heap) (hcv : ClosedVal heap v)
    (path : String) :
    pruneFunctions (stdFuel heap) heap path v st ≠ .error .outOfFuel := by
  apply valFuel _ _ hwf.1 hch _ _ _ hcv
  unfold unseenCount stdFuel
  have h1 := List.length_filter_le
    (fun n => !(st.seen.contains (JVal.vobj n))) (heap.map Prod.fst)
  have h2 : (heap.map Prod.fst).length = heap.length := List.length_map _ _
  omega

/-! ## Claims C9 and C10 -/

/-- Paths compose. -/
theorem pathTo_append {heap : Heap} {v : JVal} {p : List String} {m : Nat}
    (h1 : PathTo heap v p m) :
    ∀ {c : List String} {m2 : Nat}, PathTo heap (JVal.vobj m) c m2 →
      PathTo heap v (p ++ c) m2 := by
  induction h1 with
  | here n =>
    intro c m2 h2
    simpa using h2
  | child n k u p2 m2 hmem hp ih =>
    intro c m3 h2
    exact PathTo.child _ _ _ _ _ hmem (ih h2)

/-- A walk error propagates out of `buildCallMessage` (out of `call`). -/
theorem buildCallMessage_err (id : Nat) (scope method : String) (heap : Heap)
    (params : JVal) (e : WalkErr)
    (hp : pruneFunctions (stdFuel heap) heap "" params ⟨[], [], []⟩ = .error e) :
    buildCallMessage id scope method heap params = .error e := by
  simp only [buildCallMessage, hp, bind, Except.bind]

/-- Claim C9: the callback-extraction walk is total — with the standard
fuel it never runs out of fuel, on any heap and any starting state — and on
every `params` object graph that contains a cycle reachable from the root,
`call`'s message construction throws the recursive-structure error after
finitely many steps instead of looping. -/
theorem claim_C9 :
    ∀ (heap : Heap) (root : JVal),
      WFHeap heap → ClosedHeap heap → ClosedVal heap root →
      (∀ (path : String) (st : WalkSt),
        pruneFunctions (stdFuel heap) heap path root st ≠ .error .outOfFuel) ∧
      (∀ (id : Nat) (scope method : String),
        (∃ (n : Nat) (p c : List String), PathTo heap root p n ∧ c ≠ [] ∧
          PathTo heap (JVal.vobj n) c n) →
        buildCallMessage id scope method heap root = .error .recursiveParams) := by
  intro heap root hwf hch hcv
  constructor
  · intro path st
    exact stdFuel_adequate heap root st hwf hch hcv path
  · intro id scope method hcyc
    obtain ⟨n, p, c, hpath, hcne, hcyc2⟩ := hcyc
    cases hres : pruneFunctions (stdFuel heap) heap "" root ⟨[], [], []⟩ with
    | ok r =>
      exfalso
      obtain ⟨st2, pv⟩ := r
      have hpath2 : PathTo heap root (p ++ c) n := pathTo_append hpath hcyc2
      have hne : p ≠ p ++ c := by
        intro hcontra
        have : (p ++ c).length = p.length := by rw [← hcontra]
        rw [List.length_append] at this
        have : c.length = 0 := by omega
        exact hcne (List.length_eq_zero.mp this)
      exact core_two_paths p (p ++ c) _ heap "" root _ _ _ n hwf hne hpath
        hpath2 hres
    | error e =>
      cases e with
      | recursiveParams => exact buildCallMessage_err _ _ _ _ _ _ hres
      | outOfFuel =>
        exact absurd hres (stdFuel_adequate heap root _ hwf hch hcv "")

/-- Claim C9 witness: the one-node self-referential heap
`x = { self: x }`. -/
theorem claim_C9_witness :
    (pruneFunctions (stdFuel [(0, [("self", JVal.vobj 0)])])
        [(0, [("self", JVal.vobj 0)])] "" (.vobj 0) ⟨[], [], []⟩
      ≠ .error .outOfFuel) ∧
    buildCallMessage 7 "s" "m" [(0, [("self", JVal.vobj 0)])] (.vobj 0)
      = .error .recursiveParams := by
  have hwf : WFHeap [(0, [("self", JVal.vobj 0)])] := by
    constructor
    · simp
    · intro pr hpr
      simp at hpr
      subst hpr
      simp
  have hch : ClosedHeap [(0, [("self", JVal.vobj 0)])] := by
    intro pr hpr kv hkv j hj
    simp at hpr
    subst hpr
    simp at hkv
    subst hkv
    simp at hj
    simp [hj]
  have hcv : ClosedVal [(0, [("self", JVal.vobj 0)])] (.vobj 0) := by
    intro j hj
    have : j = 0 := by
      injection hj with h2
      exact h2.symm
    subst this
    simp
  have h := claim_C9 [(0, [("self", JVal.vobj 0)])] (.vobj 0) hwf hch hcv
  refine ⟨h.1 "" ⟨[], [], []⟩, h.2 7 "s" "m" ?_⟩
  refine ⟨0, [], ["self"], PathTo.here 0, by simp, ?_⟩
  apply PathTo.child 0 "self" (JVal.vobj 0) [] 0
  · simp [heapProps, List.lookup]
  · exact PathTo.here 0

/-- Claim C10: the walk records every visited object in `seen` and never
un-records it, so even an acyclic `params` graph in which one object is
reachable along two distinct property paths makes `call` throw the
recursive-structure error. -/
theorem claim_C10 :
    ∀ (heap : Heap) (root : JVal) (m : Nat) (p q : List String) (id : Nat)
      (scope method : String),
      WFHeap heap → ClosedHeap heap → ClosedVal heap root →
      p ≠ q → PathTo heap root p m → PathTo heap root q m →
      buildCallMessage id scope method heap root = .error .recursiveParams := by
  intro heap root m p q id scope method hwf hch hcv hne hp hq
  cases hres : pruneFunctions (stdFuel heap) heap "" root ⟨[], [], []⟩ with
  | ok r =>
    exfalso
    obtain ⟨st2, pv⟩ := r
    exact core_two_paths p q _ heap "" root _ _ _ m hwf hne hp hq hres
  | error e =>
    cases e with
    | recursiveParams => exact buildCallMessage_err _ _ _ _ _ _ hres
    | outOfFuel =>
      exact absurd hres (stdFuel_adequate heap root _ hwf hch hcv "")

/-- Claim C10 witness: the diamond heap `root = { a: y, b: y }` with a shared
acyclic sub-object `y = {}`. -/
theorem claim_C10_witness :
    buildCallMessage 7 "s" "m"
        [(0, [("a", JVal.vobj 1), ("b", JVal.vobj 1)]), (1, [])] (.vobj 0)
      = .error .recursiveParams := by
  have hwf : WFHeap [(0, [("a", JVal.vobj 1), ("b", JVal.vobj 1)]), (1, [])] := by
    constructor
    · simp
    · intro pr hpr
      simp at hpr
      rcases hpr with h1 | h1 <;> subst h1 <;> simp
  have hch : ClosedHeap
      [(0, [("a", JVal.vobj 1), ("b", JVal.vobj 1)]), (1, [])] := by
    intro pr hpr kv hkv j hj
    simp at hpr
    rcases hpr with h1 | h1 <;> subst h1 <;> simp at hkv
    · rcases hkv with h2 | h2 <;> subst h2 <;> simp at hj <;> simp [hj]
  have hcv : ClosedVal
      [(0, [("a", JVal.vobj 1), ("b", JVal.vobj 1)]), (1, [])] (.vobj 0) := by
    intro j hj
    have : j = 0 := by
      injection hj with h2
      exact h2.symm
    subst this
    simp
  apply claim_C10 _ _ 1 ["a"] ["b"] 7 "s" "m" hwf hch hcv (by simp)
  · apply PathTo.child 0 "a" (JVal.vobj 1) [] 1
    · simp [heapProps, List.lookup]
    · exact PathTo.here 1
  · apply PathTo.child 0 "b" (JVal.vobj 1) [] 1
    · simp [heapProps, List.lookup]
    · exact PathTo.here 1

/-! ## Claim C2: callback extraction and synthesis -/

/-- A successful walk of a non-function value leaves no function anywhere in
the pruned tree: every function-valued member was extracted and deleted. -/
theorem valNoFun :
    ∀ (fuel : Nat) (heap : Heap) (path : String) (v : JVal) (st st2 : WalkSt)
      (pv : PVal), pruneFunctions fuel heap path v st = .ok (st2, pv) →
      v.typeofIsFunc = false → pv.hasFun = false := by
  intro fuel
  induction fuel with
  | zero =>
    intro heap path v st st2 pv h hof
    obtain ⟨hcont, hcases⟩ := pruneFunctions_ok_inv _ _ _ _ _ _ _ h
    rcases hcases with ⟨n, f, props2, rfl, hfuel, hp, rfl⟩ | ⟨rfl, rfl, rfl⟩ |
      ⟨hno, rfl, rfl⟩
    · exact absurd hfuel (by omega)
    · simp [PVal.hasFun]
    · cases v <;> simp_all [JVal.toPrim, PVal.hasFun, JVal.typeofIsFunc]
  | succ f ihf =>
    have hprops : ∀ (heap : Heap) (path : String)
        (props : List (String × JVal)) (st st2 : WalkSt)
        (res : List (String × PVal)),
        prunePropsList f heap path props st = .ok (st2, res) →
        hasFunProps res = false := by
      intro heap path props
      induction props with
      | nil =>
        intro st st2 res h
        rw [prunePropsList_nil] at h
        simp only [Except.ok.injEq, Prod.mk.injEq] at h
        obtain ⟨rfl, rfl⟩ := h
        simp [hasFunProps]
      | cons kv rest ihrest =>
        obtain ⟨k, v⟩ := kv
        intro st st2 res h
        rcases prunePropsList_cons_ok _ _ _ _ _ _ _ _ _ h with
          ⟨t, rfl, hrest⟩ | ⟨hf2, ho, sta, pv, rest2, hp, hrest, rfl⟩ |
          ⟨hf2, ho, rest2, hrest, rfl⟩
        · exact ihrest _ _ _ hrest
        · have h1 := ihf _ _ _ _ _ _ hp hf2
          have h2 := ihrest _ _ _ hrest
          simp [hasFunProps, h1, h2]
        · have h2 := ihrest _ _ _ hrest
          have h1 : (v.toPrim).hasFun = false := by
            cases v <;> simp_all [JVal.toPrim, PVal.hasFun, JVal.typeofIsFunc,
              JVal.typeofIsObject]
          simp [hasFunProps, h1, h2]
    intro heap path v st st2 pv h hof
    obtain ⟨hcont, hcases⟩ := pruneFunctions_ok_inv _ _ _ _ _ _ _ h
    rcases hcases with ⟨n, f2, props2, rfl, hfuel, hp, rfl⟩ | ⟨rfl, rfl, rfl⟩ |
      ⟨hno, rfl, rfl⟩
    · have hfe : f2 = f := by omega
      subst hfe
      have := hprops _ _ _ _ _ _ hp
      simp [PVal.hasFun, this]
    · simp [PVal.hasFun]
    · cases v <;> simp_all [JVal.toPrim, PVal.hasFun, JVal.typeofIsFunc]

/-- Every function-valued member of a walked property list has its path
recorded in `callbackNames`. -/
theorem propsNameRecorded (fuel : Nat) (heap : Heap) (path : String)
    (props : List (String × JVal)) (st st2 : WalkSt) (res : List (String × PVal))
    (h : prunePropsList fuel heap path props st = .ok (st2, res))
    (k : String) (t : Nat) (hmem : (k, JVal.vfunc t) ∈ props) :
    joinPath path k ∈ st2.names := by
  induction props generalizing st res with
  | nil => simp at hmem
  | cons kv rest ihrest =>
    obtain ⟨k2, v⟩ := kv
    rcases prunePropsList_cons_ok _ _ _ _ _ _ _ _ _ h with
      ⟨t2, heq, hrest⟩ | ⟨hf2, ho, sta, pv, rest2, hp, hrest, rfl⟩ |
      ⟨hf2, ho, rest2, hrest, rfl⟩
    · rcases List.mem_cons.mp hmem with hh | ht
      · rw [Prod.mk.injEq] at hh
        obtain ⟨rfl, hv⟩ := hh
        have hpre := (propsPrefix _ _ _ _ _ _ _ hrest).2
        apply hpre.subset
        simp
      · exact ihrest _ _ hrest ht
    · rcases List.mem_cons.mp hmem with hh | ht
      · rw [Prod.mk.injEq] at hh
        obtain ⟨rfl, rfl⟩ := hh
        simp [JVal.typeofIsFunc] at hf2
      · exact ihrest _ _ hrest ht
    · rcases List.mem_cons.mp hmem with hh | ht
      · rw [Prod.mk.injEq] at hh
        obtain ⟨rfl, rfl⟩ := hh
        simp [JVal.typeofIsFunc] at hf2
      · exact ihrest _ _ hrest ht

/-- Setting a property makes it readable. -/
theorem getProp_setProp (props : List (String × PVal)) (k : String) (v : PVal) :
    getProp (setProp props k v) k = some v := by
  induction props with
  | nil => simp [setProp, getProp, List.lookup]
  | cons kv rest ih =>
    obtain ⟨k2, v2⟩ := kv
    by_cases hk : k2 = k
    · subst hk
      simp [setProp, getProp, List.lookup]
    · rw [setProp]
      simp only [hk, if_false]
      rw [getProp, List.lookup]
      have : (k == k2) = false := by
        simp only [beq_eq_false_iff_ne, ne_eq]
        exact fun hcontra => hk hcontra.symm
      simp only [this]
      exact ih

/-- The empty path prefix leaves the key unchanged. -/
theorem joinPath_empty (k : String) : joinPath "" k = k := by
  simp [joinPath]

/-- Claim C2: calling with a `params` object that holds a function at
property `onProgress`: the posted Request's `callbacks` list contains the
path `"onProgress"` and the serialized params carry no function value; on
the receiving side a callback function is synthesized at that path, and
`trans.invoke` on it posts a CallbackInvocation whose id equals the
Request's transaction id. -/
theorem claim_C2 :
    ∀ (seed fn : Nat) (scope method : String)
      (rootProps : List (String × JVal)) (msg : WireMsg) (st : WalkSt),
      ("onProgress", JVal.vfunc fn) ∈ rootProps →
      buildCallMessage seed scope method [(0, rootProps)] (JVal.vobj 0)
        = .ok (msg, st) →
      "onProgress" ∈ st.names ∧
      (∃ props2 : List (String × PVal),
        msg = .request seed (jsJoin "::" [scope, method]) (.pobj props2)
          st.names ∧
        (PVal.pobj props2).hasFun = false ∧
        installCallback (.pobj props2) (splitPath "onProgress")
          = .ok (.pobj (setProp props2 "onProgress" (.pfunc 0))) ∧
        getProp (setProp props2 "onProgress" (.pfunc 0)) "onProgress"
          = some (.pfunc 0)) ∧
      (∀ v : PVal, transactionInvoke [seed] seed st.names "onProgress" v
        = .ok (.callbackInv seed "onProgress" v)) := by
  intro seed fn scope method rootProps msg st hmem hbuild
  cases hp : pruneFunctions (stdFuel [(0, rootProps)]) [(0, rootProps)] ""
      (JVal.vobj 0) ⟨[], [], []⟩ with
  | error e =>
    rw [buildCallMessage_err _ _ _ _ _ _ hp] at hbuild
    simp at hbuild
  | ok r =>
    obtain ⟨st3, pv⟩ := r
    have hbuild2 : msg = .request seed (jsJoin "::" [scope, method]) pv st3.names
        ∧ st = st3 := by
      simp only [buildCallMessage, hp, bind, Except.bind, Except.ok.injEq,
        Prod.mk.injEq] at hbuild
      exact ⟨hbuild.1.symm, hbuild.2.symm⟩
    obtain ⟨rfl, rfl⟩ := hbuild2
    obtain ⟨hcont, hcases⟩ := pruneFunctions_ok_inv _ _ _ _ _ _ _ hp
    rcases hcases with ⟨n, f2, props2, heqv, hfuel, hpl, rfl⟩ | ⟨heqv, rfl, rfl⟩ |
      ⟨hno, rfl, rfl⟩
    · obtain rfl : n = 0 := by
        injection heqv with h2
        exact h2.symm
      have hprops0 : heapProps [(0, rootProps)] 0 = rootProps := by
        simp [heapProps, List.lookup]
      rw [hprops0] at hpl
      have hname : joinPath "" "onProgress" ∈ st.names :=
        propsNameRecorded _ _ _ _ _ _ _ hpl "onProgress" fn hmem
      rw [joinPath_empty] at hname
      refine ⟨hname, ⟨props2, rfl, ?_, ?_, ?_⟩, ?_⟩
      · exact valNoFun _ _ _ _ _ _ _ hp rfl
      · have hsplit : splitPath "onProgress" = ["onProgress"] := by decide
        rw [hsplit]
        rw [installCallback]
      · exact getProp_setProp props2 "onProgress" (.pfunc 0)
      · intro v
        rw [transactionInvoke]
        have h1 : ([seed].contains seed) = true := by simp
        have h2 : (st.names.contains "onProgress") = true := by
          simp only [List.elem_eq_mem, decide_eq_true_eq]
          exact hname
        rw [h1, h2]
        rfl
    · simp at heqv
    · simp [JVal.typeofIsObject] at hno

/-- Claim C2 witness: `params = { onProgress: fn }`. -/
theorem claim_C2_witness :
    "onProgress" ∈ (WalkSt.mk [JVal.vobj 0] ["onProgress"]
        [("onProgress", 9)]).names ∧
    (∃ props2 : List (String × PVal),
      WireMsg.request 3 "s::m" (.pobj []) ["onProgress"]
        = .request 3 (jsJoin "::" ["s", "m"]) (.pobj props2)
          (WalkSt.mk [JVal.vobj 0] ["onProgress"] [("onProgress", 9)]).names ∧
      (PVal.pobj props2).hasFun = false ∧
      installCallback (.pobj props2) (splitPath "onProgress")
        = .ok (.pobj (setProp props2 "onProgress" (.pfunc 0))) ∧
      getProp (setProp props2 "onProgress" (.pfunc 0)) "onProgress"
        = some (.pfunc 0)) ∧
    (∀ v : PVal, transactionInvoke [3] 3
        (WalkSt.mk [JVal.vobj 0] ["onProgress"] [("onProgress", 9)]).names
        "onProgress" v
      = .ok (.callbackInv 3 "onProgress" v)) := by
  apply claim_C2 3 9 "s" "m" [("onProgress", JVal.vfunc 9)]
  · simp
  · simp +decide [buildCallMessage, pruneFunctions, prunePropsList, heapProps,
      joinPath, stdFuel, jsJoin, JVal.typeofIsFunc, JVal.typeofIsObject,
      JVal.truthy, JVal.toPrim, bind, Except.bind]
